import Mathlib

/-!
Verification of the core engine of the `prolog` repository (a Go Prolog
interpreter) against its natural-language specification.

The repository mixes two generations of the engine:

* an environment-threading generation (`Compound.Unify`, `Compound.Unparse`
  work against an explicit `*Env`), and
* an earlier mutable-reference generation (`builtin.go`, the VM and the
  clause compiler), in which a `Variable` carries a mutable `Ref` field.

Both are embedded over a single term type.  Variables are identified by
natural-number ids.  The mutable heap of `Ref` fields of the old generation
and the persistent environment of the new generation are both embedded as an
association list `Env` from variable ids to terms, threaded explicitly;
binding a variable prepends a pair.  Go's `float64` payload is represented by
an opaque `Int` index: no claim under scrutiny performs float arithmetic,
only identity comparison and classification.
-/

namespace Prolog

/-- Prolog terms: atoms, integers, floats, variables (by id) and compounds.
Mirrors the Go `Term` sum (`Atom`, `Integer`, `Float`, `Variable`,
`*Compound`). -/
inductive Term : Type where
  | atom (a : String)
  | int (n : Int)
  | flt (x : Int)
  | var (v : Nat)
  | comp (f : String) (args : List Term)
deriving Repr

mutual

/-- Structural equality on terms (two terms are equal iff same constructor,
same payload, and pairwise equal arguments). -/
def Term.beq : Term → Term → Bool
  | .atom a, .atom b => a == b
  | .int n, .int m => n == m
  | .flt x, .flt y => x == y
  | .var v, .var w => v == w
  | .comp f as, .comp g bs => f == g && Term.beqList as bs
  | _, _ => false

/-- Pairwise structural equality on argument lists. -/
def Term.beqList : List Term → List Term → Bool
  | [], [] => true
  | a :: as, b :: bs => Term.beq a b && Term.beqList as bs
  | _, _ => false

end

mutual

theorem Term.beq_refl : (t : Term) → Term.beq t t = true
  | .atom _ => by simp [Term.beq]
  | .int _ => by simp [Term.beq]
  | .flt _ => by simp [Term.beq]
  | .var _ => by simp [Term.beq]
  | .comp f as => by
      simp only [Term.beq, beq_self_eq_true, Bool.true_and]
      exact Term.beqList_refl as

theorem Term.beqList_refl : (as : List Term) → Term.beqList as as = true
  | [] => rfl
  | a :: as => by
      simp only [Term.beqList, Bool.and_eq_true]
      exact ⟨Term.beq_refl a, Term.beqList_refl as⟩

end

mutual

theorem Term.eq_of_beq : {t u : Term} → Term.beq t u = true → t = u
  | .atom a, .atom b, h => by
      have hab : a = b := by simpa [Term.beq] using h
      exact congrArg Term.atom hab
  | .int a, .int b, h => by
      have hab : a = b := by simpa [Term.beq] using h
      exact congrArg Term.int hab
  | .flt a, .flt b, h => by
      have hab : a = b := by simpa [Term.beq] using h
      exact congrArg Term.flt hab
  | .var a, .var b, h => by
      have hab : a = b := by simpa [Term.beq] using h
      exact congrArg Term.var hab
  | .comp f as, .comp g bs, h => by
      simp only [Term.beq, Bool.and_eq_true, beq_iff_eq] at h
      obtain ⟨hf, hargs⟩ := h
      subst hf
      exact congrArg (Term.comp f) (Term.eqList_of_beqList hargs)

theorem Term.eqList_of_beqList : {as bs : List Term} → Term.beqList as bs = true → as = bs
  | [], [], _ => rfl
  | a :: as, b :: bs, h => by
      simp only [Term.beqList, Bool.and_eq_true] at h
      obtain ⟨h1, h2⟩ := h
      rw [Term.eq_of_beq h1, Term.eqList_of_beqList h2]

end

instance : DecidableEq Term := fun t u =>
  if h : Term.beq t u = true then
    .isTrue (Term.eq_of_beq h)
  else
    .isFalse (fun he => h (he ▸ Term.beq_refl t))

/-- The variable bindings.  In the env generation this is the persistent
`Env`; in the mutable generation it stands for the heap of `Variable.Ref`
fields.  Binding prepends; lookup takes the first (and only) binding of an
id. -/
def Env : Type := List (Nat × Term)

instance : Membership (Nat × Term) Env := inferInstanceAs (Membership _ (List _))

/-- First binding of a variable id, i.e. the `Ref` field of that variable
(`none` = unbound). -/
def Env.lookup (env : Env) (v : Nat) : Option Term :=
  match env with
  | [] => none
  | (w, t) :: rest => if w = v then some t else Env.lookup rest v

/-- Go `Resolve` walks variable chains to the deepest non-variable term or
terminal unbound variable.  A chain in an acyclic environment visits each
binding at most once, so `env.length + 1` steps always suffice; on a cyclic
chain the walk stops after that many steps (the Go original would not
terminate there, but `Resolve` is only ever specified on acyclic chains). -/
def Env.resolveN (env : Env) : Nat → Term → Term
  | 0, t => t
  | n + 1, t =>
    match t with
    | .var v =>
      match env.lookup v with
      | some t' => env.resolveN n t'
      | none => .var v
    | t => t

/-- Go `Env.Resolve`. -/
def Env.resolve (env : Env) (t : Term) : Term :=
  env.resolveN (env.length + 1) t

mutual

/-- Modelled from the spec: the occurs check of `unify` (`Variable.Unify` is
not part of the sources at hand; the spec says: "before binding variable V to
term T, walk T rejecting any occurrence of V").  The walk is structural on T;
a variable leaf counts as an occurrence of V when it resolves to V. -/
def occurs (v : Nat) (t : Term) (env : Env) : Bool :=
  match t with
  | .var w =>
    match env.resolve (.var w) with
    | .var u => u = v
    | _ => false
  | .comp _ as => occursList v as env
  | _ => false

/-- The occurs check over an argument list. -/
def occursList (v : Nat) (ts : List Term) (env : Env) : Bool :=
  match ts with
  | [] => false
  | t :: ts => occurs v t env || occursList v ts env

end

mutual

/-- Unification.  `unify fuel t1 t2 occ env` is Go's `t1.Unify(t2, occ, env)`
(in the mutable generation, `t1.Unify(t2)` with `occ = false` and `env` the
heap).  Dispatch is on the receiver `t1` exactly as the Go method set does;
the compound receiver case is `Compound.Unify` from the source: resolve `t`,
demand equal functor and arity, unify the arguments pairwise threading the
environment, and return `(env, false)` on any mismatch.  The atom/integer/
float/variable receivers are modelled from the spec ("resolve each side; if
either is an unbound variable, bind it to the other (skip if already
identical variable); numbers unify only with numerically equal values of the
same kind; atoms only with equal atoms"): an argument that resolves to an
unbound variable is bound to the receiver; an unbound variable receiver is
bound to the resolved argument, subject to the occurs check.  `fuel` is
consumed only when a bound variable receiver delegates to the term it is
bound to and when the compound receiver descends into its argument list —
`fuel` thus bounds the call depth of the Go recursion (which, on a cyclic
heap, may not terminate); out of fuel the model answers `(env, false)`. -/
def unify : Nat → Term → Term → Bool → Env → Env × Bool
  | 0, _, _, _, env => (env, false)
  | fuel + 1, t1, t2, occ, env =>
    match t1 with
    | .atom a =>
      match env.resolve t2 with
      | .atom b => (env, a = b)
      | .var w => ((w, .atom a) :: env, true)
      | _ => (env, false)
    | .int n =>
      match env.resolve t2 with
      | .int m => (env, n = m)
      | .var w => ((w, .int n) :: env, true)
      | _ => (env, false)
    | .flt x =>
      match env.resolve t2 with
      | .flt y => (env, x = y)
      | .var w => ((w, .flt x) :: env, true)
      | _ => (env, false)
    | .comp f as =>
      match env.resolve t2 with
      | .comp g bs =>
        if f ≠ g then (env, false)
        else if as.length ≠ bs.length then (env, false)
        else unifyArgs fuel as bs occ env
      | .var w =>
        if occ && occurs w (.comp f as) env then (env, false)
        else ((w, .comp f as) :: env, true)
      | _ => (env, false)
    | .var v =>
      match env.resolve (.var v) with
      | .var w =>
        match env.resolve t2 with
        | .var u => if u = w then (env, true) else ((u, .var w) :: env, true)
        | r => if occ && occurs w r env then (env, false) else ((w, r) :: env, true)
      | r => unify fuel r t2 occ env

/-- The pairwise argument loop of `Compound.Unify`: unify arguments
left-to-right threading the environment; stop at the first failure,
returning the environment as extended so far.  (The loop is only entered
after the arity check, so the lists have equal length.) -/
def unifyArgs : Nat → List Term → List Term → Bool → Env → Env × Bool
  | 0, _, _, _, env => (env, false)
  | _ + 1, [], _, _, env => (env, true)
  | _ + 1, _ :: _, [], _, env => (env, true)
  | fuel + 1, a :: as, b :: bs, occ, env =>
    match unify fuel a b occ env with
    | (env', true) => unifyArgs fuel as bs occ env'
    | (env', false) => (env', false)

end


/-! ### Claim C1: `Compound.Unify` -/

/-- C1 (as stated, refuted): the claim asserts that `Compound.Unify(c, t,
occursCheck, env)` succeeds whenever `t` resolves to a variable, for every
value of `occursCheck`.  With `occursCheck = true`, `c = f(X)` and `t = X`
the resolved `t` is the variable `X`, yet unification fails, because the
occurs check rejects binding `X` to a compound containing `X`.  (The third
conjunct shows the failure is the occurs check, not fuel exhaustion: the
same call with `occursCheck = false` succeeds.) -/
theorem claim1_counterexample :
    Env.resolve [] (Term.var 0) = Term.var 0 ∧
    (unify 2 (Term.comp "f" [Term.var 0]) (Term.var 0) true []).2 = false ∧
    (unify 2 (Term.comp "f" [Term.var 0]) (Term.var 0) false []).2 = true :=
  ⟨rfl, rfl, rfl⟩

/-- C1 (amended): for a compound receiver `c = f(as)`, `Compound.Unify`
succeeds iff `t` resolved through `env` is either a variable that — when
`occursCheck` is true — does not occur in `c` (the variable is then bound to
`c`), or a compound with the same functor and the same number of arguments
whose arguments unify pairwise left-to-right threading the environment; and
on any mismatch (different functor, different arity, atom, or number) it
returns `(env, false)` rather than raising an error. -/
theorem claim1_compound_unify_amended (fuel : Nat) (f : String) (as : List Term)
    (t : Term) (occ : Bool) (env : Env) :
    ((unify (fuel + 1) (.comp f as) t occ env).2 = true ↔
      (∃ w, Env.resolve env t = .var w ∧ (occ = true → occurs w (.comp f as) env = false)) ∨
      (∃ bs, Env.resolve env t = .comp f bs ∧ bs.length = as.length ∧
        (unifyArgs fuel as bs occ env).2 = true)) ∧
    (∀ w, Env.resolve env t = .var w → (occ = true → occurs w (.comp f as) env = false) →
      unify (fuel + 1) (.comp f as) t occ env = ((w, .comp f as) :: env, true)) ∧
    (∀ g bs, Env.resolve env t = .comp g bs → (g ≠ f ∨ bs.length ≠ as.length) →
      unify (fuel + 1) (.comp f as) t occ env = (env, false)) ∧
    (∀ a, Env.resolve env t = .atom a → unify (fuel + 1) (.comp f as) t occ env = (env, false)) ∧
    (∀ n, Env.resolve env t = .int n → unify (fuel + 1) (.comp f as) t occ env = (env, false)) ∧
    (∀ x, Env.resolve env t = .flt x → unify (fuel + 1) (.comp f as) t occ env = (env, false)) := by
  refine ⟨?_, ?_, ?_, ?_, ?_, ?_⟩
  · cases h : Env.resolve env t with
    | atom a => simp [unify, h]
    | int n => simp [unify, h]
    | flt x => simp [unify, h]
    | var w =>
      simp only [unify, h]
      by_cases ho : occ = true
      · subst ho
        cases hx : occurs w (.comp f as) env with
        | true => simp [hx]
        | false => simp [hx]
      · have ho' : occ = false := by
          cases occ
          · rfl
          · exact absurd rfl ho
        subst ho'
        simp
    | comp g bs =>
      simp only [unify, h]
      by_cases h1 : f = g
      · subst h1
        by_cases h2 : as.length = bs.length
        · rw [if_neg (by simp), if_neg (by simp [h2])]
          constructor
          · intro hu
            exact Or.inr ⟨bs, rfl, h2.symm, hu⟩
          · rintro (⟨w, hw, -⟩ | ⟨bs2, hb, -, hu⟩)
            · exact absurd hw (by simp)
            · obtain ⟨-, rfl⟩ := Term.comp.inj hb
              exact hu
        · rw [if_neg (by simp), if_pos (by simpa using h2)]
          constructor
          · intro hu
            exact absurd hu (by simp)
          · rintro (⟨w, hw, -⟩ | ⟨bs2, hb, hlen, -⟩)
            · exact absurd hw (by simp)
            · obtain ⟨-, rfl⟩ := Term.comp.inj hb
              exact absurd hlen.symm h2
      · rw [if_pos (by simpa using h1)]
        constructor
        · intro hu
          exact absurd hu (by simp)
        · rintro (⟨w, hw, -⟩ | ⟨bs2, hb, -, -⟩)
          · exact absurd hw (by simp)
          · exact absurd (Term.comp.inj hb).1.symm h1
  · intro w hw hocc
    simp only [unify, hw]
    by_cases ho : occ = true
    · simp [ho, hocc ho]
    · have ho' : occ = false := by
        cases occ
        · rfl
        · exact absurd rfl ho
      simp [ho']
  · intro g bs hg hne
    simp only [unify, hg]
    by_cases h1 : f = g
    · subst h1
      have h2 : as.length ≠ bs.length := by
        rcases hne with hne | hne
        · exact absurd rfl hne
        · omega
      rw [if_neg (by simp), if_pos (by simpa using h2)]
    · rw [if_pos (by simpa using h1)]
  · intro a ha
    simp [unify, ha]
  · intro n hn
    simp [unify, hn]
  · intro x hx
    simp [unify, hx]

/-- Witness for C1 (amended): unifying `g` (a 0-ary compound receiver is not
constructible, so use `g(a)`) with a fresh variable binds the variable. -/
theorem claim1_witness :
    unify 2 (Term.comp "g" [Term.atom "a"]) (Term.var 5) true [] =
      ([(5, Term.comp "g" [Term.atom "a"])], true) :=
  (claim1_compound_unify_amended 1 "g" [Term.atom "a"] (Term.var 5) true []).2.1
    5 rfl (fun _ => rfl)


/-! ### Errors, promises, and the VM's arrival at a procedure -/

/-- The error values produced by the embedded code paths.  Prolog error
terms (`instantiation_error`, `type_error(...)`, `existence_error(...)`,
`system_error(...)`) keep their culprit terms; plain Go `errors.New`/
`fmt.Errorf` errors are kept as their message string. -/
inductive Err : Type where
  | instantiationErr (culprit : Term)
  | typeErrList (culprit : Term)
  | typeErrCallable (culprit : Term)
  | existenceErrProcedure (culprit : Term)
  | systemErr (inner : Err)
  | goErr (msg : String)
deriving Repr, DecidableEq

/-- Go `Cons` from the source: a list cell `.(car, cdr)`. -/
def Cons (car cdr : Term) : Term := .comp "." [car, cdr]

/-- Go `List(ts...)` from the source: a proper list ending in `[]`. -/
def listT (ts : List Term) : Term := ts.foldr Cons (.atom "[]")

/-- A procedure indicator `name/arity` (Go `procedureIndicator`; the arity is
a Prolog `Integer`). -/
structure ProcInd where
  name : String
  arity : Int
deriving Repr, DecidableEq

/-- Modelled from the spec (§4.G; the `nondet` package is not among the
sources at hand): the lazy choice-point tree.  `bool b` is `nondet.Bool`
(`Unit`/`Fail`), `err` is `nondet.Error`, `delay ps` is `nondet.Delay`
with its thunks in order (ordered disjunction, tried left-to-right),
`cut p` is `nondet.Cut` (first success or failure of `p` commits), and
`barrier p` is `nondet.Opaque` (the cut barrier of a predicate entry). -/
inductive Promise : Type where
  | bool (b : Bool)
  | err (e : Err)
  | delay (ps : List Promise)
  | cut (p : Promise)
  | barrier (p : Promise)
deriving Repr

/-- The comma-sequence walk of `EachSeq` (spec-modelled alongside the env
generation's `EachSeq` in the sources): splits a `,/2` right-spine. -/
def eachSeqCollect : Term → List Term
  | .comp "," [l, r] => l :: eachSeqCollect r
  | t => [t]

/-- The list walk of `EachList`: walks the list spine, failing with an
instantiation error on an unbound tail (the error carries the whole list)
and a `type_error(list, ...)` on a non-list tail. -/
def eachListCollect (whole : Term) : Term → Except Err (List Term)
  | .var _ => .error (.instantiationErr whole)
  | .atom a => if a = "[]" then .ok [] else .error (.typeErrList (.atom a))
  | .comp f args =>
    match f, args with
    | ".", [h, tl] => do
      let rest ← eachListCollect whole tl
      pure (h :: rest)
    | _, _ => .error (.typeErrList (.comp f args))
  | t => .error (.typeErrList t)

/-- Go `Each` from the source (env generation; the VM generation's `Each` is the
same walk without the environment): a `./2` compound is walked as a list,
anything else as a `,/2` sequence. -/
def eachCollect (t : Term) : Except Err (List Term) :=
  match t with
  | .comp "." [_, _] => eachListCollect t t
  | t => .ok (eachSeqCollect t)

/-- The VM's `unknown` flag (Go `unknownAction`). -/
inductive UnknownAction : Type where
  | unknownError
  | unknownFail
  | unknownWarning
deriving Repr, DecidableEq

/-- Membership of a procedure indicator in the procedure table
(`vm.procedures[pi] == nil`). -/
def procsHave : List ProcInd → ProcInd → Bool
  | [], _ => false
  | p :: ps, pi => if p = pi then true else procsHave ps pi

/-- Go `VM.arrive`.  The call args are decomposed by `Each` (an error there is
wrapped as a `system_error`); then the procedure table is consulted; a
missing procedure is handled by the `unknown` flag: `error` raises
`existence_error(procedure, name/arity)`, `warning` logs (the second
component collects the log) and falls through to `fail`, which produces
`false`.  A found procedure continues as a delayed `p.Call(vm, args, k)`,
abstracted here by `callOf`.  (The arrive/exec hooks have no observable
effect beyond the warning log.) -/
def arrive (procs : List ProcInd) (callOf : ProcInd → Promise)
    (unknown : UnknownAction) (pi : ProcInd) (args : Term) :
    Promise × List ProcInd :=
  match eachCollect args with
  | .error e => (.err (.systemErr e), [])
  | .ok _ =>
    if procsHave procs pi then
      (.delay [callOf pi], [])
    else
      match unknown with
      | .unknownError =>
        (.err (.existenceErrProcedure (.comp "/" [.atom pi.name, .int pi.arity])), [])
      | .unknownWarning => (.bool false, [pi])
      | .unknownFail => (.bool false, [])

/-! ### Claim C2: the `unknown` flag -/

/-- C2 (confirmed): at a goal whose principal functor has no registered
procedure, `unknown = error` raises `existence_error(procedure, name/arity)`;
`unknown = fail` produces `false` with no error and no log; and
`unknown = warning` logs a warning and then fails. -/
theorem claim2_unknown_flag (procs : List ProcInd) (callOf : ProcInd → Promise)
    (pi : ProcInd) (args : Term) (as : List Term)
    (hmiss : procsHave procs pi = false)
    (hargs : eachCollect args = .ok as) :
    arrive procs callOf .unknownError pi args =
      (.err (.existenceErrProcedure (.comp "/" [.atom pi.name, .int pi.arity])), []) ∧
    arrive procs callOf .unknownFail pi args = (.bool false, []) ∧
    arrive procs callOf .unknownWarning pi args = (.bool false, [pi]) := by
  refine ⟨?_, ?_, ?_⟩ <;> simp [arrive, hargs, hmiss]

/-- Witness for C2 at a concrete call: `foo(a, b)` against an empty
procedure table. -/
theorem claim2_witness :
    arrive [] (fun _ => .bool false) .unknownError ⟨"foo", 2⟩
        (listT [.atom "a", .atom "b"]) =
      (.err (.existenceErrProcedure (.comp "/" [.atom "foo", .int 2])), []) ∧
    arrive [] (fun _ => .bool false) .unknownFail ⟨"foo", 2⟩
        (listT [.atom "a", .atom "b"]) = (.bool false, []) ∧
    arrive [] (fun _ => .bool false) .unknownWarning ⟨"foo", 2⟩
        (listT [.atom "a", .atom "b"]) = (.bool false, [⟨"foo", 2⟩]) :=
  claim2_unknown_flag [] (fun _ => .bool false) ⟨"foo", 2⟩
    (listT [.atom "a", .atom "b"]) [.atom "a", .atom "b"] rfl rfl



/-! ### Operators and the parser's binding priorities -/

/-- Operator specifiers (shape and associativity), as in the source's
`operatorSpecifier`. -/
inductive OperatorSpecifier : Type where
  | fx
  | fy
  | xf
  | yf
  | xfx
  | xfy
  | yfx
deriving Repr, DecidableEq

/-- An operator table entry (`operator`): a priority in 1..1200, a
specifier, and a name. -/
structure Operator : Type where
  priority : Int
  specifier : OperatorSpecifier
  name : String
deriving Repr, DecidableEq

/-- Go `operator.bindingPriorities` from the parser: the Pratt binding powers of
an operator, in Prolog priority terms, as a `(left, right)` pair.  `max =
1202` stands for ∞ (the Go `default` branch returns `(max, max)` but the
specifier enumeration is total, so it is unreachable). -/
def bindingPriorities (o : Operator) : Int × Int :=
  let highest : Int := 1202
  match o.specifier with
  | .fx => (highest, o.priority - 1)
  | .fy => (highest, o.priority)
  | .xf => (o.priority - 1, highest)
  | .yf => (o.priority, highest)
  | .xfx => (o.priority - 1, o.priority - 1)
  | .xfy => (o.priority - 1, o.priority)
  | .yfx => (o.priority, o.priority - 1)

/-! ### Claim C8: binding priorities table -/

/-- C8 (confirmed): for every operator of priority P the left/right binding
priorities are fx → (∞, P-1), fy → (∞, P), xf → (P-1, ∞), yf → (P, ∞),
xfx → (P-1, P-1), xfy → (P-1, P), yfx → (P, P-1), where ∞ is 1202, a value
strictly greater than 1201. -/
theorem claim8_binding_priorities (p : Int) (n : String) :
    bindingPriorities ⟨p, .fx, n⟩ = (1202, p - 1) ∧
    bindingPriorities ⟨p, .fy, n⟩ = (1202, p) ∧
    bindingPriorities ⟨p, .xf, n⟩ = (p - 1, 1202) ∧
    bindingPriorities ⟨p, .yf, n⟩ = (p, 1202) ∧
    bindingPriorities ⟨p, .xfx, n⟩ = (p - 1, p - 1) ∧
    bindingPriorities ⟨p, .xfy, n⟩ = (p - 1, p) ∧
    bindingPriorities ⟨p, .yfx, n⟩ = (p, p - 1) ∧
    (1201 : Int) < 1202 :=
  ⟨rfl, rfl, rfl, rfl, rfl, rfl, rfl, by decide⟩



/-! ### The `functor/3` built-in -/

/-- Resolving a non-variable term is the identity. -/
theorem Env.resolve_atom (σ : Env) (a : String) : Env.resolve σ (.atom a) = .atom a := rfl

theorem Env.resolve_int (σ : Env) (n : Int) : Env.resolve σ (.int n) = .int n := rfl

theorem Env.resolve_flt (σ : Env) (x : Int) : Env.resolve σ (.flt x) = .flt x := rfl

theorem Env.resolve_comp (σ : Env) (f : String) (as : List Term) :
    Env.resolve σ (.comp f as) = .comp f as := rfl

/-- Resolving an unbound variable yields the variable itself. -/
theorem Env.resolve_unbound (σ : Env) (v : Nat) (hv : Env.lookup σ v = none) :
    Env.resolve σ (.var v) = .var v := by
  simp [Env.resolve, Env.resolveN, hv]

/-- Go `Functor` from `builtin.go`.  The `term` argument is walked through its
reference chain: an atom checks `name`/`arity` against the atom and `0`, a
compound against its functor and arity, an integer or float falls into the
`default` branch and fails, and an unbound variable switches to construction
mode: `name` must then resolve to an atom (else a Go error) and `arity` to an
integer (else a Go error).  With arity value `0` the term variable is unified
with the **arity integer** `0` (`v.Unify(*a)`); with a positive arity `N` it
is unified with a compound of `name` and `N` fresh variables; a negative
arity makes Go's `make([]Term, *a)` panic, modelled as an error.  The result
carries success, the heap, and the next fresh variable id. -/
def functorBI (fuel : Nat) (term name arity : Term) (σ : Env) (gen : Nat) :
    Except Err (Bool × Env × Nat) :=
  match Env.resolve σ term with
  | .atom a =>
    match unify fuel (.atom a) name false σ with
    | (σ1, false) => .ok (false, σ1, gen)
    | (σ1, true) =>
      match unify fuel (.int 0) arity false σ1 with
      | (σ2, ok2) => .ok (ok2, σ2, gen)
  | .comp f args =>
    match unify fuel (.atom f) name false σ with
    | (σ1, false) => .ok (false, σ1, gen)
    | (σ1, true) =>
      match unify fuel (.int args.length) arity false σ1 with
      | (σ2, ok2) => .ok (ok2, σ2, gen)
  | .var v =>
    match Env.resolve σ name with
    | .atom nm =>
      match Env.resolve σ arity with
      | .int a =>
        if a = 0 then
          match unify fuel (.var v) (.int 0) false σ with
          | (σ1, ok1) => .ok (ok1, σ1, gen)
        else if a < 0 then .error (.goErr "make: negative length")
        else
          let vars := (List.range a.toNat).map (fun i => Term.var (gen + i))
          match unify fuel (.var v) (.comp nm vars) false σ with
          | (σ1, ok1) => .ok (ok1, σ1, gen + a.toNat)
      | .var _ => .error (.goErr "invalid arguments")
      | _ => .error (.goErr "invalid arguments")
    | .var _ => .error (.goErr "invalid arguments: atom is not instantiated")
    | _ => .error (.goErr "invalid arguments: name is not an atom")
  | .int _ => .ok (false, σ, gen)
  | .flt _ => .ok (false, σ, gen)

/-! ### Claim C10: `functor/3` with an unbound term and arity 0 -/

/-- C10 (confirmed): `Functor` called with an unbound variable term, an atom
name and integer arity `0` binds the term variable to the **integer 0** (the
arity value), not to the name atom; with arity `N ≥ 1` it binds the term to
a compound of the given name and `N` fresh variable arguments. -/
theorem claim10_functor (fuel : Nat) (σ : Env) (gen v : Nat) (nm : String) (N : Int)
    (hv : Env.lookup σ v = none) :
    functorBI (fuel + 1) (.var v) (.atom nm) (.int 0) σ gen =
      .ok (true, (v, .int 0) :: σ, gen) ∧
    Env.resolve ((v, Term.int 0) :: σ) (.var v) = .int 0 ∧
    (1 ≤ N → functorBI (fuel + 1) (.var v) (.atom nm) (.int N) σ gen =
      .ok (true, (v, .comp nm ((List.range N.toNat).map (fun i => Term.var (gen + i)))) :: σ,
        gen + N.toNat)) := by
  have hres : Env.resolve σ (.var v) = .var v := Env.resolve_unbound σ v hv
  refine ⟨?_, ?_, ?_⟩
  · simp [functorBI, hres, unify, Env.resolve_int, Env.resolve_atom]
  · simp [Env.resolve, Env.resolveN, Env.lookup]
  · intro hN
    have h0 : N ≠ 0 := by omega
    have h1 : ¬(N < 0) := by omega
    simp [functorBI, hres, unify, Env.resolve_int, Env.resolve_atom, Env.resolve_comp, h0, h1]

/-- Witness for C10: `functor(X, foo, 0)` binds `X = 0`; `functor(X, foo, 2)`
binds `X = foo(V0, V1)`. -/
theorem claim10_witness :
    functorBI 3 (.var 0) (.atom "foo") (.int 0) [] 10 =
      .ok (true, [(0, .int 0)], 10) ∧
    functorBI 3 (.var 0) (.atom "foo") (.int 2) [] 10 =
      .ok (true, [(0, .comp "foo" [.var 10, .var 11])], 12) := by
  have h := claim10_functor 2 [] 10 0 "foo" 2 rfl
  refine ⟨h.1, ?_⟩
  have h2 := h.2.2 (by decide)
  simpa using h2



/-! ### The `op/3` built-in and its operator table -/

/-- The engine generation's operator table entry (`operator` in `builtin.go`:
`Precedence`, `Type`, `Name`; the `Type` is the full specifier atom such as
`xfy`). -/
structure EngineOperator : Type where
  precedence : Int
  typ : String
  name : String
deriving Repr, DecidableEq

/-- Whether the table holds an entry with exactly this `(Type, Name)` pair
(the "already defined?" scan of `Engine.Op`). -/
def containsOp (t n : String) : List EngineOperator → Bool
  | [] => false
  | o :: os => if o.typ = t ∧ o.name = n then true else containsOp t n os

/-- Removal of the matching entry performed by `Engine.Op`'s scan.  (The Go
loop ranges over the slice while mutating it; under the table invariant that
a `(Type, Name)` pair occurs at most once — which `Engine.Op` itself
maintains — the loop removes exactly the single matching entry, which is
what is modelled.) -/
def removeOpFirst (t n : String) : List EngineOperator → List EngineOperator
  | [] => []
  | o :: os => if o.typ = t ∧ o.name = n then os else o :: removeOpFirst t n os

/-- The insertion of `Engine.Op`: `sort.Search` finds the first index whose
precedence is `≥ p` and the new entry is inserted there, i.e. an ordered
insert before the first entry of greater-or-equal precedence. -/
def insertOp (p : Int) (t n : String) : List EngineOperator → List EngineOperator
  | [] => [⟨p, t, n⟩]
  | o :: os => if p ≤ o.precedence then ⟨p, t, n⟩ :: o :: os else o :: insertOp p t n os

/-- Go `Engine.Op`: resolve the three arguments (a non-integer precedence or a
non-atom type or name is a Go error); remove an existing entry with the same
`(Type, Name)`; if the new precedence is `0`, stop after the removal,
otherwise insert the new entry at its sorted position.  With no matching
entry the new entry is inserted (also when `p = 0`). -/
def opBuiltin (precedence typ name : Term) (σ : Env) (ops : List EngineOperator) :
    Except Err (Bool × List EngineOperator) :=
  match Env.resolve σ precedence with
  | .int p =>
    match Env.resolve σ typ with
    | .atom t =>
      match Env.resolve σ name with
      | .atom n =>
        if containsOp t n ops then
          let ops' := removeOpFirst t n ops
          if p = 0 then .ok (true, ops')
          else .ok (true, insertOp p t n ops')
        else .ok (true, insertOp p t n ops)
      | _ => .error (.goErr "invalid name")
    | _ => .error (.goErr "invalid type")
  | _ => .error (.goErr "invalid precedence")

/-- The table is ordered by priority. -/
def opsSorted (ops : List EngineOperator) : Prop :=
  List.Pairwise (fun a b => a.precedence ≤ b.precedence) ops

/-- No two entries share the same `(Type, Name)` pair. -/
def opsUniq (ops : List EngineOperator) : Prop :=
  List.Pairwise (fun a b => ¬(a.typ = b.typ ∧ a.name = b.name)) ops

theorem mem_insertOp {p : Int} {t n : String} {os : List EngineOperator}
    {x : EngineOperator} (hx : x ∈ insertOp p t n os) :
    x = ⟨p, t, n⟩ ∨ x ∈ os := by
  induction os with
  | nil => simpa [insertOp] using hx
  | cons o os ih =>
    by_cases h : p ≤ o.precedence
    · simp only [insertOp, if_pos h, List.mem_cons] at hx
      rcases hx with h1 | h1 | h1
      · exact Or.inl h1
      · exact Or.inr (by simp [h1])
      · exact Or.inr (List.mem_cons_of_mem _ h1)
    · simp only [insertOp, if_neg h, List.mem_cons] at hx
      rcases hx with h1 | h1
      · exact Or.inr (by simp [h1])
      · rcases ih h1 with h2 | h2
        · exact Or.inl h2
        · exact Or.inr (List.mem_cons_of_mem _ h2)

theorem insertOp_sorted {p : Int} {t n : String} {os : List EngineOperator}
    (hs : opsSorted os) : opsSorted (insertOp p t n os) := by
  induction os with
  | nil => simp [insertOp, opsSorted]
  | cons o os ih =>
    rw [opsSorted, List.pairwise_cons] at hs
    obtain ⟨ho, hos⟩ := hs
    by_cases h : p ≤ o.precedence
    · rw [insertOp, if_pos h]
      rw [opsSorted, List.pairwise_cons]
      constructor
      · intro b hb
        rcases List.mem_cons.mp hb with hb | hb
        · subst hb; exact h
        · exact le_trans h (ho b hb)
      · rw [opsSorted, List.pairwise_cons] at *
        exact ⟨ho, hos⟩
    · rw [insertOp, if_neg h]
      rw [opsSorted, List.pairwise_cons]
      constructor
      · intro b hb
        rcases mem_insertOp hb with hb | hb
        · subst hb; exact le_of_not_le h
        · exact ho b hb
      · exact ih hos

theorem removeOpFirst_sublist (t n : String) (os : List EngineOperator) :
    (removeOpFirst t n os).Sublist os := by
  induction os with
  | nil => simp [removeOpFirst]
  | cons o os ih =>
    by_cases h : o.typ = t ∧ o.name = n
    · rw [removeOpFirst, if_pos h]
      exact List.sublist_cons_of_sublist o (List.Sublist.refl os)
    · rw [removeOpFirst, if_neg h]
      exact List.Sublist.cons₂ o ih

theorem removeOpFirst_sorted {t n : String} {os : List EngineOperator}
    (hs : opsSorted os) : opsSorted (removeOpFirst t n os) :=
  List.Pairwise.sublist (removeOpFirst_sublist t n os) hs

theorem removeOpFirst_uniq {t n : String} {os : List EngineOperator}
    (hs : opsUniq os) : opsUniq (removeOpFirst t n os) :=
  List.Pairwise.sublist (removeOpFirst_sublist t n os) hs

theorem no_pair_of_not_containsOp {t n : String} {os : List EngineOperator}
    (h : containsOp t n os = false) :
    ∀ x ∈ os, ¬(x.typ = t ∧ x.name = n) := by
  induction os with
  | nil => simp
  | cons o os ih =>
    intro x hx
    by_cases ho : o.typ = t ∧ o.name = n
    · rw [containsOp, if_pos ho] at h
      exact absurd h (by simp)
    · rw [containsOp, if_neg ho] at h
      rcases List.mem_cons.mp hx with hx | hx
      · subst hx; exact ho
      · exact ih h x hx

theorem no_pair_removeOpFirst {t n : String} {os : List EngineOperator}
    (hu : opsUniq os) :
    ∀ x ∈ removeOpFirst t n os, ¬(x.typ = t ∧ x.name = n) := by
  induction os with
  | nil => simp [removeOpFirst]
  | cons o os ih =>
    rw [opsUniq, List.pairwise_cons] at hu
    obtain ⟨ho, hos⟩ := hu
    intro x hx
    by_cases h : o.typ = t ∧ o.name = n
    · rw [removeOpFirst, if_pos h] at hx
      intro hx2
      exact ho x hx ⟨h.1.trans hx2.1.symm, h.2.trans hx2.2.symm⟩
    · rw [removeOpFirst, if_neg h] at hx
      rcases List.mem_cons.mp hx with hx | hx
      · subst hx; exact h
      · exact ih hos x hx

theorem insertOp_uniq {p : Int} {t n : String} {os : List EngineOperator}
    (hu : opsUniq os) (hnone : ∀ x ∈ os, ¬(x.typ = t ∧ x.name = n)) :
    opsUniq (insertOp p t n os) := by
  induction os with
  | nil => simp [insertOp, opsUniq]
  | cons o os ih =>
    rw [opsUniq, List.pairwise_cons] at hu
    obtain ⟨ho, hos⟩ := hu
    by_cases h : p ≤ o.precedence
    · rw [insertOp, if_pos h]
      rw [opsUniq, List.pairwise_cons]
      constructor
      · intro b hb hpair
        exact hnone b hb ⟨hpair.1.symm, hpair.2.symm⟩
      · exact List.pairwise_cons.mpr ⟨ho, hos⟩
    · rw [insertOp, if_neg h]
      rw [opsUniq, List.pairwise_cons]
      constructor
      · intro b hb
        rcases mem_insertOp hb with hb | hb
        · subst hb
          intro hpair
          exact hnone o (List.mem_cons_self o os) ⟨hpair.1, hpair.2⟩
        · exact ho b hb
      · exact ih hos (fun x hx => hnone x (List.mem_cons_of_mem _ hx))

/-! ### Claim C7: op/3 uniqueness and ordering -/

/-- C7 (as stated, refuted): the claim keys uniqueness on the *specifier
class*.  `yfx` and `xfy` are both infix specifiers, so by the claim,
declaring `op(400, xfy, +)` over a table holding `(500, yfx, +)` must remove
the `yfx` entry.  The code keys on the exact specifier atom and keeps both
entries. -/
theorem claim7_counterexample :
    opBuiltin (.int 400) (.atom "xfy") (.atom "+") []
        [⟨500, "yfx", "+"⟩] =
      .ok (true, [⟨400, "xfy", "+"⟩, ⟨500, "yfx", "+"⟩]) := rfl

/-- C7 (amended): uniqueness is keyed on the exact `(specifier, name)` pair
(not the specifier class): a successful `op/3` call over a table with unique
pairs and sorted by priority yields a table that is again sorted and has
unique pairs; when an entry with the same specifier and name exists it is
removed and replaced by the new entry (or only removed when the new priority
is 0); otherwise the new entry is simply inserted in priority order. -/
theorem claim7_op_amended (p : Int) (t n : String) (σ : Env)
    (ops : List EngineOperator) (hsorted : opsSorted ops) (huniq : opsUniq ops) :
    ∃ r, opBuiltin (.int p) (.atom t) (.atom n) σ ops = .ok (true, r) ∧
      opsSorted r ∧ opsUniq r ∧
      (containsOp t n ops = true → p ≠ 0 →
        r = insertOp p t n (removeOpFirst t n ops)) ∧
      (containsOp t n ops = true → p = 0 → r = removeOpFirst t n ops) ∧
      (containsOp t n ops = false → r = insertOp p t n ops) := by
  rw [opBuiltin]
  simp only [Env.resolve_int, Env.resolve_atom]
  cases hc : containsOp t n ops with
  | false =>
    refine ⟨insertOp p t n ops, by simp [hc], insertOp_sorted hsorted,
      insertOp_uniq huniq (no_pair_of_not_containsOp hc), ?_, ?_, fun _ => rfl⟩
    · intro h; exact absurd h (by simp)
    · intro h; exact absurd h (by simp)
  | true =>
    by_cases hp : p = 0
    · refine ⟨removeOpFirst t n ops, by simp [hc, hp], removeOpFirst_sorted hsorted,
        removeOpFirst_uniq huniq, ?_, fun _ _ => rfl, ?_⟩
      · intro _ h; exact absurd hp h
      · intro h; exact absurd h (by simp)
    · refine ⟨insertOp p t n (removeOpFirst t n ops), by simp [hc, hp],
        insertOp_sorted (removeOpFirst_sorted hsorted),
        insertOp_uniq (removeOpFirst_uniq huniq) (no_pair_removeOpFirst huniq),
        fun _ _ => rfl, ?_, ?_⟩
      · intro _ h; exact absurd h hp
      · intro h; exact absurd h (by simp)

/-- Witness for C7 (amended): redefining `(yfx, +)` from priority 500 to 400
replaces the entry. -/
theorem claim7_witness :
    opBuiltin (.int 400) (.atom "yfx") (.atom "+") [] [⟨500, "yfx", "+"⟩] =
      .ok (true, [⟨400, "yfx", "+"⟩]) := by
  obtain ⟨r, heq, -, -, hrepl, -, -⟩ :=
    claim7_op_amended 400 "yfx" "+" [] [⟨500, "yfx", "+"⟩]
      (by simp [opsSorted]) (by simp [opsUniq])
  rw [heq, hrepl rfl (by decide)]
  rfl



/-! ### The clause compiler -/

/-- Bytecode instructions.  The Go bytecode is a flat byte string in which an
opcode byte is followed by its operand byte where it has one (`const`, `var`,
`functor`, `call`); an `Instr` is such an opcode/operand pair, with the
operand already reduced modulo 256 as `byte(i)` does. -/
inductive Instr : Type where
  | opVoid
  | opEnter
  | opCall (k : Nat)
  | opExit
  | opConst (k : Nat)
  | opVar (k : Nat)
  | opFunctor (k : Nat)
  | opPop
  | opCut
deriving Repr, DecidableEq

/-- The opcode of an instruction, operand forgotten. -/
inductive Opcode : Type where
  | cVoid
  | cEnter
  | cCall
  | cExit
  | cConst
  | cVar
  | cFunctor
  | cPop
  | cCut
deriving Repr, DecidableEq

/-- Forget the operand. -/
def opcodeOf : Instr → Opcode
  | .opVoid => .cVoid
  | .opEnter => .cEnter
  | .opCall _ => .cCall
  | .opExit => .cExit
  | .opConst _ => .cConst
  | .opVar _ => .cVar
  | .opFunctor _ => .cFunctor
  | .opPop => .cPop
  | .opCut => .cCut

/-- An `xrTable` entry: a constant term (atom/integer/float) or a procedure
indicator.  The Go table uses `Unify(o, false)` to look up entries; on the
ground constants and indicators actually stored there this is structural
equality. -/
inductive XrItem : Type where
  | xrTerm (t : Term)
  | xrPI (pi : ProcInd)
deriving Repr, DecidableEq

/-- The growing per-clause compilation state (`clause`): the symbol table,
the variable table, and the bytecode. -/
structure CState : Type where
  xrTable : List XrItem
  vars : List Nat
  bytecode : List Instr
deriving Repr, DecidableEq

/-- Index of the first occurrence, if any. -/
def idxOf {α : Type} [DecidableEq α] : List α → α → Option Nat
  | [], _ => none
  | x :: xs, y => if x = y then some 0 else (idxOf xs y).map (· + 1)

/-- Go `clause.xrOffset`: index of the symbol, appending it when new; the
returned offset is truncated to a byte. -/
def xrOffset (c : CState) (o : XrItem) : CState × Nat :=
  match idxOf c.xrTable o with
  | some i => (c, i % 256)
  | none => ({ c with xrTable := c.xrTable ++ [o] }, c.xrTable.length % 256)

/-- Go `clause.varOffset`: index of the variable (by identity), appending it
when new. -/
def varOffset (c : CState) (v : Nat) : CState × Nat :=
  match idxOf c.vars v with
  | some i => (c, i % 256)
  | none => ({ c with vars := c.vars ++ [v] }, c.vars.length % 256)

/-- Append one instruction. -/
def addInstr (c : CState) (i : Instr) : CState :=
  { c with bytecode := c.bytecode ++ [i] }

mutual

/-- Go `clause.compileArg`: a variable argument emits `var`, an atomic argument
(atom, integer, float) emits `const`, a compound argument emits `functor`,
its compiled arguments, then `pop`.  (The Go `default: systemError` branch is
unreachable: every `Term` constructor is covered.) -/
def compileArg (c : CState) : Term → Except Err CState
  | .var v =>
    match varOffset c v with
    | (c', k) => .ok (addInstr c' (.opVar k))
  | .atom a =>
    match xrOffset c (.xrTerm (.atom a)) with
    | (c', k) => .ok (addInstr c' (.opConst k))
  | .int n =>
    match xrOffset c (.xrTerm (.int n)) with
    | (c', k) => .ok (addInstr c' (.opConst k))
  | .flt x =>
    match xrOffset c (.xrTerm (.flt x)) with
    | (c', k) => .ok (addInstr c' (.opConst k))
  | .comp f as =>
    match xrOffset c (.xrPI ⟨f, (as.length : Int)⟩) with
    | (c1, k) =>
      match compileArgs (addInstr c1 (.opFunctor k)) as with
      | .ok c2 => .ok (addInstr c2 .opPop)
      | .error e => .error e

/-- The argument loops of `compileClause`/`compilePred`/`compileArg`. -/
def compileArgs (c : CState) : List Term → Except Err CState
  | [] => .ok c
  | a :: as =>
    match compileArg c a with
    | .ok c1 => compileArgs c1 as
    | .error e => .error e

end

/-- Go `clause.compilePred`: the literal `!` emits `cut`; another atom emits
`call name/0`; a compound emits its compiled arguments then `call name/arity`;
anything else (variable, integer, float) is a callable type error. -/
def compilePred (c : CState) : Term → Except Err CState
  | .atom p =>
    if p = "!" then .ok (addInstr c .opCut)
    else
      match xrOffset c (.xrPI ⟨p, 0⟩) with
      | (c', k) => .ok (addInstr c' (.opCall k))
  | .comp f as =>
    match compileArgs c as with
    | .ok c1 =>
      match xrOffset c1 (.xrPI ⟨f, (as.length : Int)⟩) with
      | (c2, k) => .ok (addInstr c2 (.opCall k))
    | .error e => .error e
  | t => .error (.typeErrCallable t)

/-- The body walk of `clause.compileClause`: conjuncts are peeled off the
right spine of `,/2` and compiled by `compilePred` in order. -/
def compileBody (c : CState) : Term → Except Err CState
  | .comp "," [l, r] =>
    match compilePred c l with
    | .ok c1 => compileBody c1 r
    | .error e => .error e
  | t => compilePred c t

/-- Go `clause.compileClause`: compile the head arguments (an atom head has
none; a non-callable head is a type error), then — when a body is present —
emit `enter` and compile the body, and finally emit `exit`. -/
def compileClause (c : CState) (head : Term) (body : Option Term) :
    Except Err CState :=
  match
    (match head with
     | .atom _ => Except.ok c
     | .comp _ as => compileArgs c as
     | t => Except.error (Err.typeErrCallable t)) with
  | .error e => .error e
  | .ok c1 =>
    match body with
    | none => .ok (addInstr c1 .opExit)
    | some b =>
      match compileBody (addInstr c1 .opEnter) b with
      | .ok c2 => .ok (addInstr c2 .opExit)
      | .error e => .error e

/-- Go `clause.compile`: resolve the clause term; an atom is a bare fact, a
a `:-` compound of arity 2 is split into head and body (Go indexes `Args[0]`/`Args[1]`
unconditionally, panicking on a smaller arity, and ignoring any extra
arguments), another compound is a bare head, and anything else is a callable
type error. -/
def clauseCompile (σ : Env) (t : Term) : Except Err CState :=
  match Env.resolve σ t with
  | .atom a => compileClause ⟨[], [], []⟩ (.atom a) none
  | .comp f args =>
    if f = ":-" then
      match args with
      | h :: b :: _ => compileClause ⟨[], [], []⟩ h (some b)
      | _ => .error (.goErr "panic: index out of range")
    else compileClause ⟨[], [], []⟩ (.comp f args) none
  | t => .error (.typeErrCallable t)

mutual

/-- The opcode stream the claim prescribes for one head or call argument:
`const` for atomics, `var` for variables, `functor`, the nested argument
stream, and `pop` for compounds. -/
def argShape : Term → List Opcode
  | .var _ => [.cVar]
  | .atom _ => [.cConst]
  | .int _ => [.cConst]
  | .flt _ => [.cConst]
  | .comp _ as => .cFunctor :: (argsShape as ++ [.cPop])

/-- The claim-side `argShape` over an argument list, concatenated in order. -/
def argsShape : List Term → List Opcode
  | [] => []
  | a :: as => argShape a ++ argsShape as

end

/-- The conjuncts of a body: the left elements of the right spine of `,/2`. -/
def conjuncts : Term → List Term
  | .comp "," [l, r] => l :: conjuncts r
  | t => [t]

/-- The opcode stream the claim prescribes for one body conjunct: `cut` for
the literal `!`, argument-building then `call` otherwise. -/
def conjShape : Term → List Opcode
  | .atom a => if a = "!" then [.cCut] else [.cCall]
  | .comp _ as => argsShape as ++ [.cCall]
  | _ => []

/-- Callability of a head or body conjunct: an atom or a compound. -/
def callableT : Term → Bool
  | .atom _ => true
  | .comp _ _ => true
  | _ => false

/-- All conjuncts of the body are callable. -/
def callableBody (b : Term) : Bool := (conjuncts b).all callableT

/-- The opcode stream the claim prescribes for a whole `Head :- Body` clause:
head matching, `enter`, the conjunct streams in order, `exit`. -/
def clauseShape (head body : Term) : List Opcode :=
  (match head with
   | .atom _ => []
   | .comp _ as => argsShape as
   | _ => []) ++
  [.cEnter] ++ ((conjuncts body).map conjShape).flatten ++ [.cExit]

theorem xrOffset_bytecode (c : CState) (o : XrItem) :
    (xrOffset c o).1.bytecode = c.bytecode := by
  cases h : idxOf c.xrTable o <;> simp [xrOffset, h]

theorem varOffset_bytecode (c : CState) (v : Nat) :
    (varOffset c v).1.bytecode = c.bytecode := by
  cases h : idxOf c.vars v <;> simp [varOffset, h]

mutual

theorem compileArg_shape : (c : CState) → (a : Term) →
    ∃ c', compileArg c a = .ok c' ∧
      c'.bytecode.map opcodeOf = c.bytecode.map opcodeOf ++ argShape a
  | c, .var v => by
    rcases hvo : varOffset c v with ⟨c', k⟩
    have hb : c'.bytecode = c.bytecode := by
      have h := varOffset_bytecode c v
      rw [hvo] at h
      exact h
    exact ⟨addInstr c' (.opVar k), by simp [compileArg, hvo],
      by simp [addInstr, hb, argShape, opcodeOf]⟩
  | c, .atom a => by
    rcases hxo : xrOffset c (.xrTerm (.atom a)) with ⟨c', k⟩
    have hb : c'.bytecode = c.bytecode := by
      have h := xrOffset_bytecode c (.xrTerm (.atom a))
      rw [hxo] at h
      exact h
    exact ⟨addInstr c' (.opConst k), by simp [compileArg, hxo],
      by simp [addInstr, hb, argShape, opcodeOf]⟩
  | c, .int n => by
    rcases hxo : xrOffset c (.xrTerm (.int n)) with ⟨c', k⟩
    have hb : c'.bytecode = c.bytecode := by
      have h := xrOffset_bytecode c (.xrTerm (.int n))
      rw [hxo] at h
      exact h
    exact ⟨addInstr c' (.opConst k), by simp [compileArg, hxo],
      by simp [addInstr, hb, argShape, opcodeOf]⟩
  | c, .flt x => by
    rcases hxo : xrOffset c (.xrTerm (.flt x)) with ⟨c', k⟩
    have hb : c'.bytecode = c.bytecode := by
      have h := xrOffset_bytecode c (.xrTerm (.flt x))
      rw [hxo] at h
      exact h
    exact ⟨addInstr c' (.opConst k), by simp [compileArg, hxo],
      by simp [addInstr, hb, argShape, opcodeOf]⟩
  | c, .comp f as => by
    rcases hxo : xrOffset c (.xrPI ⟨f, (as.length : Int)⟩) with ⟨c1, k⟩
    have hb1 : c1.bytecode = c.bytecode := by
      have h := xrOffset_bytecode c (.xrPI ⟨f, (as.length : Int)⟩)
      rw [hxo] at h
      exact h
    obtain ⟨c2, h2, hsh⟩ := compileArgs_shape (addInstr c1 (.opFunctor k)) as
    refine ⟨addInstr c2 .opPop, by simp [compileArg, hxo, h2], ?_⟩
    simp only [addInstr, List.map_append] at hsh ⊢
    rw [hsh, hb1]
    simp [argShape, opcodeOf]

theorem compileArgs_shape : (c : CState) → (as : List Term) →
    ∃ c', compileArgs c as = .ok c' ∧
      c'.bytecode.map opcodeOf = c.bytecode.map opcodeOf ++ argsShape as
  | c, [] => ⟨c, rfl, by simp [argsShape]⟩
  | c, a :: as => by
    obtain ⟨c1, h1, hsh1⟩ := compileArg_shape c a
    obtain ⟨c2, h2, hsh2⟩ := compileArgs_shape c1 as
    refine ⟨c2, by simp [compileArgs, h1, h2], ?_⟩
    rw [hsh2, hsh1]
    simp [argsShape]

end

theorem compilePred_shape (c : CState) (p : Term) (hp : callableT p = true) :
    ∃ c', compilePred c p = .ok c' ∧
      c'.bytecode.map opcodeOf = c.bytecode.map opcodeOf ++ conjShape p := by
  cases p with
  | atom a =>
    by_cases ha : a = "!"
    · exact ⟨addInstr c .opCut, by simp [compilePred, ha],
        by simp [addInstr, conjShape, ha, opcodeOf]⟩
    · rcases hxo : xrOffset c (.xrPI ⟨a, 0⟩) with ⟨c', k⟩
      have hb : c'.bytecode = c.bytecode := by
        have h := xrOffset_bytecode c (.xrPI ⟨a, 0⟩)
        rw [hxo] at h
        exact h
      exact ⟨addInstr c' (.opCall k), by simp [compilePred, ha, hxo],
        by simp [addInstr, hb, conjShape, ha, opcodeOf]⟩
  | comp f as =>
    obtain ⟨c1, h1, hsh1⟩ := compileArgs_shape c as
    rcases hxo : xrOffset c1 (.xrPI ⟨f, (as.length : Int)⟩) with ⟨c2, k⟩
    have hb : c2.bytecode = c1.bytecode := by
      have h := xrOffset_bytecode c1 (.xrPI ⟨f, (as.length : Int)⟩)
      rw [hxo] at h
      exact h
    refine ⟨addInstr c2 (.opCall k), by simp [compilePred, h1, hxo], ?_⟩
    simp only [addInstr, List.map_append, hb, hsh1]
    simp [conjShape, opcodeOf]
  | var v => simp [callableT] at hp
  | int n => simp [callableT] at hp
  | flt x => simp [callableT] at hp

theorem compilePred_err (c : CState) (p : Term) (hp : callableT p = false) :
    compilePred c p = .error (.typeErrCallable p) := by
  cases p with
  | atom a => simp [callableT] at hp
  | comp f as => simp [callableT] at hp
  | var v => rfl
  | int n => rfl
  | flt x => rfl

theorem compileBody_eq_pred (c : CState) (b : Term)
    (hnc : ∀ l r, b ≠ .comp "," [l, r]) :
    compileBody c b = compilePred c b := by
  rw [compileBody.eq_def]
  split
  · next l r => exact absurd rfl (hnc l r)
  · rfl

theorem conjuncts_eq_single (b : Term) (hnc : ∀ l r, b ≠ .comp "," [l, r]) :
    conjuncts b = [b] := by
  rw [conjuncts.eq_def]
  split
  · next l r => exact absurd rfl (hnc l r)
  · rfl

theorem compileBody_shape_aux : (n : Nat) → (b : Term) → sizeOf b < n → (c : CState) →
    callableBody b = true →
    ∃ c', compileBody c b = .ok c' ∧
      c'.bytecode.map opcodeOf =
        c.bytecode.map opcodeOf ++ ((conjuncts b).map conjShape).flatten
  | n + 1, b, hsz, c, hb => by
    by_cases hcomma : ∃ l r, b = .comp "," [l, r]
    · obtain ⟨l, r, rfl⟩ := hcomma
      have hcb : callableT l = true ∧ callableBody r = true := by
        have h := hb
        simp only [callableBody, conjuncts, List.all_cons, Bool.and_eq_true] at h
        exact ⟨h.1, h.2⟩
      obtain ⟨c1, h1, hsh1⟩ := compilePred_shape c l hcb.1
      have hszr : sizeOf r < n := by
        have : sizeOf r < sizeOf (Term.comp "," [l, r]) := by
          simp
          omega
        omega
      obtain ⟨c2, h2, hsh2⟩ := compileBody_shape_aux n r hszr c1 hcb.2
      refine ⟨c2, by simp [compileBody, h1, h2], ?_⟩
      rw [hsh2, hsh1]
      simp [conjuncts]
    · push_neg at hcomma
      have hc : callableT b = true := by
        have h := hb
        rw [callableBody, conjuncts_eq_single b hcomma] at h
        simpa using h
      obtain ⟨c', h1, hsh⟩ := compilePred_shape c b hc
      refine ⟨c', by rw [compileBody_eq_pred c b hcomma]; exact h1, ?_⟩
      rw [hsh, conjuncts_eq_single b hcomma]
      simp

/-- Shape of a compiled body with callable conjuncts. -/
theorem compileBody_shape (c : CState) (b : Term) (hb : callableBody b = true) :
    ∃ c', compileBody c b = .ok c' ∧
      c'.bytecode.map opcodeOf =
        c.bytecode.map opcodeOf ++ ((conjuncts b).map conjShape).flatten :=
  compileBody_shape_aux (sizeOf b + 1) b (by omega) c hb


theorem compileBody_err_aux : (n : Nat) → (b : Term) → sizeOf b < n → (c : CState) →
    callableBody b = false →
    ∃ t, compileBody c b = .error (.typeErrCallable t) ∧ callableT t = false
  | n + 1, b, hsz, c, hb => by
    by_cases hcomma : ∃ l r, b = .comp "," [l, r]
    · obtain ⟨l, r, rfl⟩ := hcomma
      have hcb : callableT l = false ∨ (callableT l = true ∧ callableBody r = false) := by
        have h := hb
        simp only [callableBody, conjuncts, List.all_cons, Bool.and_eq_false_iff] at h
        rcases h with h | h
        · exact Or.inl h
        · cases hl : callableT l
          · exact Or.inl rfl
          · exact Or.inr ⟨rfl, h⟩
      rcases hcb with hl | ⟨hl, hr⟩
      · refine ⟨l, ?_, hl⟩
        rw [compileBody, compilePred_err c l hl]
      · obtain ⟨c1, h1, -⟩ := compilePred_shape c l hl
        have hszr : sizeOf r < n := by
          have : sizeOf r < sizeOf (Term.comp "," [l, r]) := by
            simp
            omega
          omega
        obtain ⟨t, h2, ht⟩ := compileBody_err_aux n r hszr c1 hr
        exact ⟨t, by simp [compileBody, h1, h2], ht⟩
    · push_neg at hcomma
      have hc : callableT b = false := by
        have h := hb
        rw [callableBody, conjuncts_eq_single b hcomma] at h
        simpa using h
      exact ⟨b, by rw [compileBody_eq_pred c b hcomma, compilePred_err c b hc], hc⟩

/-- A body with a non-callable conjunct fails to compile with a callable
type error. -/
theorem compileBody_err (c : CState) (b : Term) (hb : callableBody b = false) :
    ∃ t, compileBody c b = .error (.typeErrCallable t) ∧ callableT t = false :=
  compileBody_err_aux (sizeOf b + 1) b (by omega) c hb

/-! ### Claim C5: clause compilation -/

/-- C5 (confirmed): compiling `Head :- Body` emits the head-matching opcodes
(`const` for atomic arguments, `var` for variables, `functor`, the nested
argument stream and `pop` for compound arguments), then `enter`, then for
each conjunct of the body — walked left-to-right through `,/2` — the
argument-building opcodes followed by `call` (with `cut` for the literal
`!`), and finally `exit`; a non-callable head or body conjunct fails
compilation with a callable type error. -/
theorem claim5_clause_compilation (head body : Term) :
    (callableT head = true → callableBody body = true →
      ∃ st, clauseCompile [] (.comp ":-" [head, body]) = .ok st ∧
        st.bytecode.map opcodeOf = clauseShape head body) ∧
    (¬(callableT head = true ∧ callableBody body = true) →
      ∃ culprit, clauseCompile [] (.comp ":-" [head, body]) =
        .error (.typeErrCallable culprit) ∧ callableT culprit = false) := by
  have hcc : clauseCompile [] (.comp ":-" [head, body]) =
      compileClause ⟨[], [], []⟩ head (some body) := rfl
  constructor
  · intro hh hb
    rw [hcc]
    cases head with
    | atom a =>
      obtain ⟨c2, h2, hsh2⟩ := compileBody_shape (addInstr ⟨[], [], []⟩ .opEnter) body hb
      refine ⟨addInstr c2 .opExit, ?_, ?_⟩
      · rw [compileClause]
        simp only [h2]
      · simp only [addInstr] at hsh2 ⊢
        simp only [List.map_append, hsh2]
        simp [clauseShape, opcodeOf]
    | comp f as =>
      obtain ⟨c1, h1, hsh1⟩ := compileArgs_shape ⟨[], [], []⟩ as
      obtain ⟨c2, h2, hsh2⟩ := compileBody_shape (addInstr c1 .opEnter) body hb
      refine ⟨addInstr c2 .opExit, ?_, ?_⟩
      · rw [compileClause]
        simp only [h1, h2]
      · simp only [addInstr] at hsh2 ⊢
        simp only [List.map_append, hsh2, hsh1]
        simp [clauseShape, opcodeOf]
    | var v => simp [callableT] at hh
    | int n => simp [callableT] at hh
    | flt x => simp [callableT] at hh
  · intro hne
    rw [hcc]
    cases hh : callableT head with
    | false =>
      cases head with
      | atom a => simp [callableT] at hh
      | comp f as => simp [callableT] at hh
      | var v => exact ⟨.var v, rfl, rfl⟩
      | int n => exact ⟨.int n, rfl, rfl⟩
      | flt x => exact ⟨.flt x, rfl, rfl⟩
    | true =>
      have hb : callableBody body = false := by
        cases hbv : callableBody body
        · rfl
        · exact absurd ⟨hh, hbv⟩ hne
      cases head with
      | atom a =>
        obtain ⟨t, h2, ht⟩ := compileBody_err (addInstr ⟨[], [], []⟩ .opEnter) body hb
        refine ⟨t, ?_, ht⟩
        rw [compileClause]
        simp only [h2]
      | comp f as =>
        obtain ⟨c1, h1, -⟩ := compileArgs_shape ⟨[], [], []⟩ as
        obtain ⟨t, h2, ht⟩ := compileBody_err (addInstr c1 .opEnter) body hb
        refine ⟨t, ?_, ht⟩
        rw [compileClause]
        simp only [h1, h2]
      | var v => simp [callableT] at hh
      | int n => simp [callableT] at hh
      | flt x => simp [callableT] at hh

/-- Witness for C5 at the clause `p(X, a) :- q(X), !.` (success, with the
expected opcode stream) and at `1 :- q.` (callable type error). -/
theorem claim5_witness :
    (∃ st, clauseCompile []
        (.comp ":-" [.comp "p" [.var 0, .atom "a"],
          .comp "," [.comp "q" [.var 0], .atom "!"]]) = .ok st ∧
      st.bytecode.map opcodeOf =
        [.cVar, .cConst, .cEnter, .cVar, .cCall, .cCut, .cExit]) ∧
    (∃ culprit, clauseCompile [] (.comp ":-" [.int 1, .atom "q"]) =
      .error (.typeErrCallable culprit) ∧ callableT culprit = false) := by
  constructor
  · obtain ⟨st, heq, hsh⟩ :=
      (claim5_clause_compilation (.comp "p" [.var 0, .atom "a"])
        (.comp "," [.comp "q" [.var 0], .atom "!"])).1 rfl rfl
    exact ⟨st, heq, by rw [hsh]; rfl⟩
  · exact (claim5_clause_compilation (.int 1) (.atom "q")).2
      (by rintro ⟨h, -⟩; simp [callableT] at h)



/-! ### Assertz and the order of clause alternatives -/

/-- A procedure key, Go's `fmt.Sprintf("%s/%d", name, arity)` string (the
name/arity pair determines that string, and vice versa for slash-free
names). -/
structure ProcKey : Type where
  name : String
  arity : Nat
deriving Repr, DecidableEq

/-- Go `nameArgs` from `builtin.go`: the principal functor of a resolved callable
term together with its argument list; an atom has arity 0 and no arguments;
anything else is `not callable`. -/
def nameArgs (σ : Env) (t : Term) : Except Err (ProcKey × Term) :=
  match Env.resolve σ t with
  | .atom a => .ok (⟨a, 0⟩, listT [])
  | .comp f as => .ok (⟨f, as.length⟩, listT as)
  | _ => .error (.goErr "not callable")

/-- A procedure: a vector of compiled clauses in assertion order, or a
built-in. -/
inductive Procedure : Type where
  | clauses (cs : List CState)
  | builtin
deriving Repr

/-- The engine's procedure map (`e.procedures`). -/
def lookupProc : List (ProcKey × Procedure) → ProcKey → Option Procedure
  | [], _ => none
  | (k, p) :: rest, key => if k = key then some p else lookupProc rest key

/-- Map update `e.procedures[name] = p`. -/
def setProc : List (ProcKey × Procedure) → ProcKey → Procedure →
    List (ProcKey × Procedure)
  | [], key, p => [(key, p)]
  | (k, q) :: rest, key, p =>
    if k = key then (key, p) :: rest else (k, q) :: setProc rest key p

/-- For a `:- Head, ...` clause (`:-` of arity 2) `Assertz` stores the clause
under the head's own principal functor, extracted by unifying the argument
list with `[H|_]` and taking `nameArgs` of `H`; otherwise the clause is
stored under the term's own functor. -/
def assertzHeadKey (σ : Env) (key : ProcKey) (args : Term) : Except Err ProcKey :=
  if key = ⟨":-", 2⟩ then
    match args with
    | .comp "." [h, _] =>
      match nameArgs σ h with
      | .ok (k, _) => .ok k
      | .error e => .error e
    | _ => .error (.goErr "unreachable")
  else .ok key

/-- The observable outcome of `Assertz`: either an updated procedure map, or
a directive (`:-` of arity 1), which the engine executes immediately and does
not store. -/
inductive AssertzOut : Type where
  | stored (procs : List (ProcKey × Procedure))
  | directive (goalArgs : Term)

/-- Go `Engine.Assertz`: compute the term's principal functor; a `:-` of arity 1
is a directive, executed and not stored; a `:-` of arity 2 is stored under
its head's functor; asserting over a built-in is an error; otherwise the
newly compiled clause is appended at the end of the procedure's clause
vector. -/
def assertz (σ : Env) (t : Term) (procs : List (ProcKey × Procedure)) :
    Except Err AssertzOut :=
  match nameArgs σ t with
  | .error e => .error e
  | .ok (key, args) =>
    if key = ⟨":-", 1⟩ then .ok (.directive args)
    else
      match assertzHeadKey σ key args with
      | .error e => .error e
      | .ok key2 =>
        match (match lookupProc procs key2 with
               | some p => p
               | none => .clauses []) with
        | .builtin => .error (.goErr "builtin")
        | .clauses cs =>
          match clauseCompile σ t with
          | .error e => .error e
          | .ok c => .ok (.stored (setProc procs key2 (.clauses (cs ++ [c]))))

/-- The result of forcing a promise for its first outcome (Go
`Promise.Force`): a solution, a failure (with a pending cut signal), or an
error. -/
inductive ForceRes : Type where
  | success
  | failure (cutSig : Bool)
  | errR (e : Err)
deriving Repr, DecidableEq

mutual

/-- Modelled from the spec (§4.G): the demand-driven driver.  `Delay`
alternatives are tried left-to-right, depth-first; a cut inside commits: its
failure discards the remaining alternatives up to (and absorbed by) the
enclosing barrier (`Opaque`); errors propagate. -/
def force : Promise → ForceRes
  | .bool true => .success
  | .bool false => .failure false
  | .err e => .errR e
  | .delay ps => forceList ps
  | .cut p =>
    match force p with
    | .success => .success
    | .failure _ => .failure true
    | .errR e => .errR e
  | .barrier p =>
    match force p with
    | .failure _ => .failure false
    | r => r

/-- Try the alternatives of a `Delay` in order: move to the next only on a
plain failure; a success, an error, or a cut-marked failure stops the
scan. -/
def forceList : List Promise → ForceRes
  | [] => .failure false
  | p :: ps =>
    match force p with
    | .failure false => forceList ps
    | r => r

end

/-- Go `clauses.Call`: no clauses fail outright; otherwise the per-clause
alternatives `ks` are assembled in vector order and combined as
`nondet.Opaque(nondet.Delay(ks...))`.  The execution of one clause
(`vm.exec` over its bytecode) is abstracted by `beh`; the `OnCall`/`OnRedo`
hooks and the variable reset between alternatives do not influence which
alternative is tried next. -/
def clausesCall (cs : List CState) (beh : CState → Promise) : Promise :=
  if cs.isEmpty then .bool false
  else .barrier (.delay (cs.map beh))

/-- The order the claim prescribes, applied to the list of per-clause
outcomes: the first clause first, each later clause only after the previous
alternative failed; a success, an error, or a cut commit stops the scan (the
cut signal is consumed at the predicate's barrier). -/
def tryInOrder : List ForceRes → ForceRes
  | [] => .failure false
  | r :: rs =>
    match r with
    | .failure false => tryInOrder rs
    | .failure true => .failure false
    | r => r

theorem forceList_tryInOrder (ps : List Promise) :
    (match forceList ps with
     | .failure _ => ForceRes.failure false
     | r => r) = tryInOrder (ps.map force) := by
  induction ps with
  | nil => rfl
  | cons p ps ih =>
    rw [forceList]
    rcases hf : force p with _ | b | e
    · simp [tryInOrder, hf]
    · cases b with
      | false => simpa [tryInOrder, hf] using ih
      | true => simp [tryInOrder, hf]
    · simp [tryInOrder, hf]

/-- The promise built by `clauses.Call` yields exactly the in-order scan of
the per-clause outcomes. -/
theorem clausesCall_order (cs : List CState) (beh : CState → Promise) :
    force (clausesCall cs beh) = tryInOrder ((cs.map beh).map force) := by
  cases cs with
  | nil => rfl
  | cons c cs =>
    have hb : force (clausesCall (c :: cs) beh) =
        (match forceList ((c :: cs).map beh) with
         | .failure _ => ForceRes.failure false
         | r => r) := rfl
    rw [hb, forceList_tryInOrder]

theorem lookupProc_setProc (procs : List (ProcKey × Procedure)) (key : ProcKey)
    (p : Procedure) : lookupProc (setProc procs key p) key = some p := by
  induction procs with
  | nil => simp [setProc, lookupProc]
  | cons kq rest ih =>
    rcases kq with ⟨k, q⟩
    by_cases hk : k = key
    · simp [setProc, hk, lookupProc]
    · simp [setProc, hk, lookupProc, ih]

/-! ### Claim C6: assertion order and clause try order -/

/-- C6 (confirmed): `Assertz` appends the newly compiled clause at the end of
the procedure's clause vector, and `clauses.Call` tries the alternatives
strictly in vector order — the first clause first, a later clause only after
every earlier alternative failed (and none erred or cut). -/
theorem claim6_assertz_order (σ : Env) (t : Term)
    (procs : List (ProcKey × Procedure)) (key key2 : ProcKey) (args : Term)
    (cs : List CState) (c : CState)
    (hna : nameArgs σ t = .ok (key, args))
    (hdir : key ≠ ⟨":-", 1⟩)
    (hhk : assertzHeadKey σ key args = .ok key2)
    (hcs : lookupProc procs key2 = some (.clauses cs) ∨
      (lookupProc procs key2 = none ∧ cs = []))
    (hcomp : clauseCompile σ t = .ok c) :
    assertz σ t procs = .ok (.stored (setProc procs key2 (.clauses (cs ++ [c])))) ∧
    lookupProc (setProc procs key2 (.clauses (cs ++ [c]))) key2 =
      some (.clauses (cs ++ [c])) ∧
    (∀ beh, force (clausesCall (cs ++ [c]) beh) =
      tryInOrder (((cs ++ [c]).map beh).map force)) := by
  refine ⟨?_, lookupProc_setProc procs key2 _, fun beh => clausesCall_order _ beh⟩
  simp only [assertz, hna, if_neg hdir, hhk]
  rcases hcs with hl | ⟨hl, rfl⟩ <;> simp [hl, hcomp]

/-- Witness for C6: asserting `p :- q` into an empty table stores the single
compiled clause under `p/0`, and the resulting call scans the one-clause
vector in order. -/
theorem claim6_witness :
    ∃ c, assertz [] (.comp ":-" [.atom "p", .atom "q"]) [] =
        .ok (.stored [(⟨"p", 0⟩, .clauses [c])]) ∧
      ∀ beh, force (clausesCall [c] beh) = tryInOrder [force (beh c)] := by
  obtain ⟨c, hc⟩ : ∃ c, clauseCompile [] (.comp ":-" [.atom "p", .atom "q"]) = .ok c :=
    ⟨_, rfl⟩
  obtain ⟨h1, -, h3⟩ := claim6_assertz_order [] (.comp ":-" [.atom "p", .atom "q"]) []
    ⟨":-", 2⟩ ⟨"p", 0⟩ (listT [.atom "p", .atom "q"]) [] c rfl (by decide) rfl
    (Or.inr ⟨rfl, rfl⟩) hc
  refine ⟨c, ?_, ?_⟩
  · simpa [setProc] using h1
  · intro beh
    simpa using h3 beh


/-! ### The unparser (writer) -/

/-- Output tokens of the writer.  The Go `Token` carries a kind and a
verbatim `Val` string; for the punctuation kinds the `Val` is determined by
the kind (`(`, `)`, `[`, `]`, the braces, `,`, `|`), so those carry no
payload here. -/
inductive Token : Type where
  | ident (s : String)
  | graphic (s : String)
  | quotedT (s : String)
  | integerT (s : String)
  | signT (s : String)
  | variableT (s : String)
  | parenL
  | parenR
  | bracketL
  | bracketR
  | braceL
  | braceR
  | commaT
  | barT
deriving Repr, DecidableEq

/-- Write-time options (`WriteTermOptions`): `Quoted`, `Ops`, `NumberVars`
and the ambient `Priority`.  (`Descriptive` only affects atom spelling in
paths not under scrutiny.) -/
structure WriteOpts : Type where
  quoted : Bool := false
  ops : List Operator := []
  numberVars : Bool := false
  priority : Int := 0

/-- A letter-digit atom: a lowercase letter followed by alphanumerics or
underscores. -/
def isLetterIdentStr (a : String) : Bool :=
  match a.toList with
  | [] => false
  | c :: cs => c.isLower && cs.all (fun d => d.isAlphanum || d = '_')

/-- A graphic character of the Prolog token syntax. -/
def graphicChar (c : Char) : Bool :=
  c = '#' || c = '$' || c = '&' || c = '*' || c = '+' || c = '-' || c = '.' ||
  c = '/' || c = ':' || c = '<' || c = '=' || c = '>' || c = '?' || c = '@' ||
  c = '^' || c = '~' || c = '\\'

/-- A graphic atom. -/
def isGraphicStr (a : String) : Bool :=
  !a.toList.isEmpty && a.toList.all graphicChar

/-- Modelled from the spec: `Atom.Unparse` (not among the sources at hand)
emits one token for the atom: quoted when `quoted` is set and the atom needs
quoting, an identifier token for letter-digit atoms, a graphic token
otherwise. -/
def atomUnparse (a : String) (opts : WriteOpts) : Token :=
  if opts.quoted &&
      !(isLetterIdentStr a || isGraphicStr a ||
        a = "[]" || a = "\x7b\x7d" || a = "!" || a = ";" || a = ",") then
    .quotedT a
  else if isLetterIdentStr a then .ident a
  else .graphic a

/-- Modelled from the spec and the writer tests: a negative integer emits a
sign token then the magnitude, a non-negative one a single integer token. -/
def intUnparse (n : Int) : List Token :=
  if n < 0 then [.signT "-", .integerT (toString (-n))]
  else [.integerT (toString n)]

/-- The variable name the `number_vars` branch of `Compound.Unparse`
computes for `$VAR(N)`: `letters[int(n)%26]` (Go's truncated `%`), followed
by `int(n)/26` (truncated `/`) when that quotient is non-zero.  (For a
negative `N`, Go would panic indexing `letters`; the claims only concern
non-negative `N`, and the model then falls back on `'A'`.) -/
def numberVarsName (n : Int) : String :=
  let letters := "ABCDEFGHIJKLMNOPQRSTUVWXYZ".toList
  let i := (Int.tmod n 26).toNat
  let j := Int.tdiv n 26
  if j = 0 then String.singleton (letters.getD i 'A')
  else String.singleton (letters.getD i 'A') ++ toString j

/-- A specifier usable on an arity-1 compound. -/
def isUnarySpec : OperatorSpecifier → Bool
  | .fx => true
  | .fy => true
  | .xf => true
  | .yf => true
  | _ => false

/-- A specifier usable on an arity-2 compound. -/
def isBinarySpec : OperatorSpecifier → Bool
  | .xfx => true
  | .xfy => true
  | .yfx => true
  | _ => false

/-- The arity-1 operator scan of `Compound.Unparse`: the first table entry
whose name matches and whose specifier is unary (entries with other
specifiers are skipped, as the Go `switch` falls through and the loop
continues). -/
def findOpUnary : List Operator → String → Option Operator
  | [], _ => none
  | op :: ops, f =>
    if op.name = f ∧ isUnarySpec op.specifier then some op else findOpUnary ops f

/-- The arity-2 operator scan. -/
def findOpBinary : List Operator → String → Option Operator
  | [], _ => none
  | op :: ops, f =>
    if op.name = f ∧ isBinarySpec op.specifier then some op else findOpBinary ops f

/-- Parenthesise when the operator's priority exceeds the ambient one. -/
def wrapParens (cond : Bool) (ts : List Token) : List Token :=
  if cond then .parenL :: ts ++ [.parenR] else ts

mutual

/-- Go `Compound.Unparse` (together with the leaf `Unparse` methods, modelled
from the spec).  The branch order is the source's: a `./2` compound prints
as a list, a `{}/1` compound as a braced block, then an operator compound of
arity 1 or 2 prints using the first matching table entry (parenthesised iff
the operator's priority exceeds the ambient priority, and with the ambient
priority set to the operator's priority for its arguments), then — with
`number_vars` set — a `$VAR(N)` compound whose argument resolves to an
integer prints as a variable name, and finally the canonical
`f(arg, ..., arg)` form.  Arguments are resolved before recursion.  `fuel`
bounds the recursion depth and the list-tail loop, neither of which is
bounded in the source (no depth limit, no visited set); `none` means the
emission did not complete within `fuel` steps.  (A compound with an empty
argument vector would make Go panic on `c.Args[0]`; the engine never builds
one, and the model answers `none` there.) -/
def unparse : Nat → Term → WriteOpts → Env → Option (List Token)
  | 0, _, _, _ => none
  | fuel + 1, t, opts, env =>
    match t with
    | .atom a => some [atomUnparse a opts]
    | .int n => some (intUnparse n)
    | .flt x => some [.integerT (toString x)]
    | .var v => some [.variableT ("_" ++ toString v)]
    | .comp f args =>
      match f, args with
      | ".", [a0, a1] =>
        match unparse fuel (env.resolve a0) opts env,
            unparseListTail fuel (env.resolve a1) opts env with
        | some ts0, some tsr => some (.bracketL :: ts0 ++ tsr ++ [.bracketR])
        | _, _ => none
      | "\x7b\x7d", [a0] =>
        match unparse fuel (env.resolve a0) opts env with
        | some ts => some (.braceL :: ts ++ [.braceR])
        | none => none
      | f, [a0] =>
        match findOpUnary opts.ops f with
        | some op =>
          match unparse fuel (env.resolve a0) { opts with priority := op.priority } env with
          | none => none
          | some ts =>
            match op.specifier with
            | .xf => some (wrapParens (decide (op.priority > opts.priority))
                (ts ++ [atomUnparse f opts]))
            | .yf => some (wrapParens (decide (op.priority > opts.priority))
                (ts ++ [atomUnparse f opts]))
            | _ => some (wrapParens (decide (op.priority > opts.priority))
                (atomUnparse f opts :: ts))
        | none =>
          if opts.numberVars && f = "$VAR" then
            match env.resolve a0 with
            | .int n => some [.variableT (numberVarsName n)]
            | _ => unparseCanonical fuel f [a0] opts env
          else unparseCanonical fuel f [a0] opts env
      | f, [a0, a1] =>
        match findOpBinary opts.ops f with
        | some op =>
          match unparse fuel (env.resolve a0) { opts with priority := op.priority } env,
              unparse fuel (env.resolve a1) { opts with priority := op.priority } env with
          | some ts0, some ts1 =>
            some (wrapParens (decide (op.priority > opts.priority))
              (ts0 ++ [atomUnparse f opts] ++ ts1))
          | _, _ => none
        | none => unparseCanonical fuel f [a0, a1] opts env
      | f, args => unparseCanonical fuel f args opts env

/-- The list-tail loop of the list branch: a further `./2` cell emits a comma
and its head and loops on its resolved tail, the atom `[]` closes the list,
anything else emits `|` and the tail term. -/
def unparseListTail : Nat → Term → WriteOpts → Env → Option (List Token)
  | 0, _, _, _ => none
  | fuel + 1, t, opts, env =>
    match t with
    | .comp "." [h, tl] =>
      match unparse fuel (env.resolve h) opts env,
          unparseListTail fuel (env.resolve tl) opts env with
      | some ts, some rest => some (.commaT :: ts ++ rest)
      | _, _ => none
    | .atom "[]" => some []
    | t =>
      match unparse fuel t opts env with
      | some ts => some (.barT :: ts)
      | none => none

/-- The canonical `f(a, b, ...)` emission. -/
def unparseCanonical : Nat → String → List Term → WriteOpts → Env → Option (List Token)
  | 0, _, _, _, _ => none
  | fuel + 1, f, args, opts, env =>
    match args with
    | [] => none
    | a0 :: rest =>
      match unparse fuel (env.resolve a0) opts env, unparseArgs fuel rest opts env with
      | some ts0, some tsr =>
        some (atomUnparse f opts :: .parenL :: ts0 ++ tsr ++ [.parenR])
      | _, _ => none

/-- The remaining canonical arguments, each preceded by a comma. -/
def unparseArgs : Nat → List Term → WriteOpts → Env → Option (List Token)
  | 0, _, _, _ => none
  | _ + 1, [], _, _ => some []
  | fuel + 1, a :: as, opts, env =>
    match unparse fuel (env.resolve a) opts env, unparseArgs fuel as opts env with
    | some ts, some rest => some (.commaT :: ts ++ rest)
    | _, _ => none

end



/-! ### Claim C4: the writer on a cyclic term -/

/-- The list-tail loop never completes on the self-referential list
`X = '.'(a, X)`: each iteration resolves the tail back to the same cell. -/
theorem claim4_listtail_none (opts : WriteOpts) (fuel : Nat) :
    unparseListTail fuel (Term.comp "." [.atom "a", .var 0]) opts
      [(0, Term.comp "." [.atom "a", .var 0])] = none := by
  induction fuel with
  | zero => rfl
  | succ fuel ih =>
    show (match unparse fuel (.atom "a") opts [(0, Term.comp "." [.atom "a", .var 0])],
          unparseListTail fuel (Term.comp "." [.atom "a", .var 0]) opts
            [(0, Term.comp "." [.atom "a", .var 0])] with
      | some ts, some rest => some (.commaT :: ts ++ rest)
      | _, _ => none) = none
    rw [ih]
    cases unparse fuel (.atom "a") opts [(0, Term.comp "." [.atom "a", .var 0])] <;> rfl

/-- C4 (the code lacks what the claim requires): unifying `X` with
`'.'(a, X)` under `occurs_check = false` produces the cyclic binding, and on
that term the writer's traversal never completes, for every recursion-depth
budget: `Compound.Unparse` has neither a depth limit nor a visited set, so
the Go original diverges where the claim asserts termination. -/
theorem claim4_writer_diverges (fuel : Nat) (opts : WriteOpts) :
    (unify 2 (Term.var 0) (Term.comp "." [.atom "a", .var 0]) false []) =
      ([(0, Term.comp "." [.atom "a", .var 0])], true) ∧
    unparse fuel (Term.comp "." [.atom "a", .var 0]) opts
      [(0, Term.comp "." [.atom "a", .var 0])] = none := by
  refine ⟨rfl, ?_⟩
  cases fuel with
  | zero => rfl
  | succ fuel =>
    show (match unparse fuel (.atom "a") opts [(0, Term.comp "." [.atom "a", .var 0])],
          unparseListTail fuel (Term.comp "." [.atom "a", .var 0]) opts
            [(0, Term.comp "." [.atom "a", .var 0])] with
      | some ts0, some tsr => some (.bracketL :: ts0 ++ tsr ++ [.bracketR])
      | _, _ => none) = none
    rw [claim4_listtail_none]
    cases unparse fuel (.atom "a") opts [(0, Term.comp "." [.atom "a", .var 0])] <;> rfl

/-! ### Claim C9: number_vars -/

theorem findOpUnary_eq_none (ops : List Operator) (f : String)
    (h : ∀ op ∈ ops, op.name ≠ f) : findOpUnary ops f = none := by
  induction ops with
  | nil => rfl
  | cons op ops ih =>
    rw [findOpUnary, if_neg]
    · exact ih (fun o ho => h o (List.mem_cons_of_mem _ ho))
    · rintro ⟨hn, -⟩
      exact h op (List.mem_cons_self _ _) hn

/-- C9 (confirmed): with `number_vars = true` (and no operator declared under
the name `$VAR`, which would take precedence), a `$VAR(N)` compound whose
argument resolves to a non-negative integer `N` emits the single variable
token `letters[N mod 26]` followed by `N div 26` exactly when that quotient
is positive; in particular `f($VAR(0), $VAR(1), $VAR(25), $VAR(26),
$VAR(27))` unparses as `f(A, B, Z, A1, B1)`. -/
theorem claim9_numbervars (fuel : Nat) (opts : WriteOpts) (env : Env) (n : Int)
    (hnv : opts.numberVars = true)
    (hops : ∀ op ∈ opts.ops, op.name ≠ "$VAR")
    (hn : 0 ≤ n) :
    unparse (fuel + 1) (.comp "$VAR" [.int n]) opts env =
      some [.variableT (numberVarsName n)] ∧
    numberVarsName n =
      String.singleton ("ABCDEFGHIJKLMNOPQRSTUVWXYZ".toList.getD (n.toNat % 26) 'A') ++
        (if 0 < n.toNat / 26 then toString (n.toNat / 26) else "") ∧
    unparse 10 (.comp "f" [.comp "$VAR" [.int 0], .comp "$VAR" [.int 1],
        .comp "$VAR" [.int 25], .comp "$VAR" [.int 26], .comp "$VAR" [.int 27]])
        { numberVars := true, priority := 1200 } [] =
      some [.ident "f", .parenL, .variableT "A", .commaT, .variableT "B", .commaT,
        .variableT "Z", .commaT, .variableT "A1", .commaT, .variableT "B1", .parenR] := by
  have hf : findOpUnary opts.ops "$VAR" = none :=
    findOpUnary_eq_none opts.ops "$VAR" hops
  refine ⟨?_, ?_, rfl⟩
  · show (match findOpUnary opts.ops "$VAR" with
      | some op =>
        match unparse fuel (env.resolve (.int n)) { opts with priority := op.priority } env with
        | none => none
        | some ts =>
          match op.specifier with
          | .xf => some (wrapParens (decide (op.priority > opts.priority))
              (ts ++ [atomUnparse "$VAR" opts]))
          | .yf => some (wrapParens (decide (op.priority > opts.priority))
              (ts ++ [atomUnparse "$VAR" opts]))
          | _ => some (wrapParens (decide (op.priority > opts.priority))
              (atomUnparse "$VAR" opts :: ts))
      | none =>
        if opts.numberVars && "$VAR" = "$VAR" then
          match env.resolve (Term.int n) with
          | .int n => some [.variableT (numberVarsName n)]
          | _ => unparseCanonical fuel "$VAR" [.int n] opts env
        else unparseCanonical fuel "$VAR" [.int n] opts env) =
      some [.variableT (numberVarsName n)]
    rw [hf]
    simp [hnv, Env.resolve_int]
  · obtain ⟨a, rfl⟩ : ∃ a : Nat, n = (a : Int) := ⟨n.toNat, (Int.toNat_of_nonneg hn).symm⟩
    rw [numberVarsName]
    have hm : Int.tmod (a : Int) 26 = ((a % 26 : Nat) : Int) := by
      exact_mod_cast (Int.ofNat_tmod a 26).symm
    have hd : Int.tdiv (a : Int) 26 = ((a / 26 : Nat) : Int) := by
      exact_mod_cast (Int.ofNat_tdiv a 26).symm
    have hts : ∀ k : Nat, toString ((k : Int)) = toString k := fun k => rfl
    rw [hm, hd]
    simp only [Int.toNat_ofNat]
    by_cases h0 : a / 26 = 0
    · simp [h0]
    · rw [if_neg (by exact_mod_cast h0), if_pos (by omega), hts]


/-- Witness for C9: `$VAR(27)` prints as the variable token `B1`. -/
theorem claim9_witness :
    unparse 2 (.comp "$VAR" [.int 27]) { numberVars := true, priority := 1200 } [] =
      some [.variableT "B1"] := by
  have h := (claim9_numbervars 1 { numberVars := true, priority := 1200 } [] 27 rfl
    (fun op hop => absurd hop (List.not_mem_nil op)) (by decide)).1
  rw [h]
  rfl

/-! ### The `=..`/2 built-in (`Univ`) -/

/-- Resolving a variable bound at the head of the environment to a
non-variable term yields that term. -/
theorem Env.resolve_head (σ : Env) (v : Nat) (t : Term) (ht : ∀ w, t ≠ .var w) :
    Env.resolve ((v, t) :: σ) (.var v) = t := by
  show Env.resolveN ((v, t) :: σ) (List.length ((v, t) :: σ) + 1) (.var v) = t
  rw [Env.resolveN]
  simp only [Env.lookup, if_pos rfl]
  cases t with
  | var w => exact absurd rfl (ht w)
  | atom a => rfl
  | int n => rfl
  | flt x => rfl
  | comp f as => rfl

/-- The functor-extraction walk of `Univ`'s construction branch: the list
head must resolve to an atom; an unbound variable or any non-atom is the Go
error `invalid argument`. -/
def univFunctorOf (σ : Env) (t : Term) : Except Err String :=
  match Env.resolve σ t with
  | .atom a => .ok a
  | _ => .error (.goErr "invalid argument")

/-- The argument-collection loop of `Univ`'s construction branch: while the
list term is not (syntactically) the atom `[]`, unify it against a cons cell
of two fresh variables, collect the head variable's binding (`car.Ref`) and
continue on the tail variable's binding (`cdr.Ref`).  A failing unification
is the Go error `invalid argument`; an unbound fresh variable after a
successful unification corresponds to Go appending a nil term or looping on
a nil list (modelled as errors; never reached on the inputs of interest).
`lf` bounds the loop, which the Go source does not (it diverges on some
cyclic inputs); `uf` is the unification call-depth budget. -/
def univArgs (uf : Nat) : Nat → Term → Env → Nat → Except Err (List Term × Env × Nat)
  | 0, _, _, _ => .error (.goErr "out of loop fuel")
  | lf + 1, list, σ, gen =>
    if list = .atom "[]" then .ok ([], σ, gen)
    else
      match unify uf list (Cons (.var gen) (.var (gen + 1))) false σ with
      | (_, false) => .error (.goErr "invalid argument")
      | (σ1, true) =>
        match Env.lookup σ1 gen with
        | none => .error (.goErr "nil element")
        | some elem =>
          match Env.lookup σ1 (gen + 1) with
          | none => .error (.goErr "nil tail")
          | some rest =>
            match univArgs uf lf rest σ1 (gen + 2) with
            | .ok (elems, σ2, gen2) => .ok (elem :: elems, σ2, gen2)
            | .error e => .error e

/-- Go `Univ` from `builtin.go` (`=../2`).  The term side is walked through its
reference chain: a compound unifies the list argument with
`[Functor | Args]`; an unbound variable switches to construction mode —
destructure the list into head and tail with fresh variables, extract the
functor, collect the arguments, and unify the term with the built compound;
**anything else (an atom included) is the Go error `invalid argument`**.
The result carries success, the heap, and the next fresh id. -/
def univ (uf lf : Nat) (term list : Term) (σ : Env) (gen : Nat) :
    Except Err (Bool × Env × Nat) :=
  match Env.resolve σ term with
  | .comp f as =>
    match unify uf list (Cons (.atom f) (listT as)) false σ with
    | (σ1, ok) => .ok (ok, σ1, gen)
  | .var _ =>
    match unify uf list (Cons (.var gen) (.var (gen + 1))) false σ with
    | (_, false) => .error (.goErr "invalid argument")
    | (σ1, true) =>
      match Env.lookup σ1 gen with
      | none => .error (.goErr "invalid argument")
      | some h =>
        match univFunctorOf σ1 h with
        | .error e => .error e
        | .ok f =>
          match Env.lookup σ1 (gen + 1) with
          | none => .error (.goErr "invalid argument")
          | some rest =>
            match univArgs uf lf rest σ1 (gen + 2) with
            | .error e => .error e
            | .ok (args, σ2, gen2) =>
              match unify uf term (.comp f args) false σ2 with
              | (σ3, ok) => .ok (ok, σ3, gen2)
  | _ => .error (.goErr "invalid argument")

/-- Unifying a term that is not a bound variable against a fresh unbound
variable binds the fresh variable to the term. -/
theorem unify_fresh_var (uf : Nat) (a : Term) (g : Nat) (σ : Env)
    (hg : Env.lookup σ g = none)
    (ha : ∀ w, a = Term.var w → Env.lookup σ w = none ∧ w ≠ g) :
    unify (uf + 1) a (.var g) false σ = ((g, a) :: σ, true) := by
  have hrg : Env.resolve σ (.var g) = .var g := Env.resolve_unbound σ g hg
  cases a with
  | atom x => simp [unify, hrg]
  | int n => simp [unify, hrg]
  | flt x => simp [unify, hrg]
  | comp f as => simp [unify, hrg]
  | var e =>
    obtain ⟨he, hne⟩ := ha e rfl
    have hre : Env.resolve σ (.var e) = .var e := Env.resolve_unbound σ e he
    simp [unify, hre, hrg, Ne.symm hne]



theorem listT_nil : listT [] = .atom "[]" := rfl

theorem listT_cons (a : Term) (as : List Term) :
    listT (a :: as) = .comp "." [a, listT as] := rfl

theorem listT_ne_var (as : List Term) (w : Nat) : listT as ≠ Term.var w := by
  cases as with
  | nil => simp [listT_nil]
  | cons a as => simp [listT_cons]

theorem unify_comp_comp (fuel : Nat) (f : String) (as : List Term) (t2 : Term)
    (bs : List Term) (occ : Bool) (env : Env)
    (h : Env.resolve env t2 = .comp f bs) (hl : as.length = bs.length) :
    unify (fuel + 1) (.comp f as) t2 occ env = unifyArgs fuel as bs occ env := by
  simp [unify, h, hl]

theorem unifyArgs_cons_ok (fuel : Nat) (a b : Term) (as bs : List Term) (occ : Bool)
    (env env' : Env) (h : unify fuel a b occ env = (env', true)) :
    unifyArgs (fuel + 1) (a :: as) (b :: bs) occ env = unifyArgs fuel as bs occ env' := by
  simp [unifyArgs, h]

/-- Collecting the arguments of a syntactically proper list of non-bound
elements returns exactly those elements, extending the heap only with
bindings of the fresh pair variables. -/
theorem univArgs_listT (uf : Nat) : (as : List Term) → (lf gen : Nat) → (σ : Env) →
    (∀ w, Term.var w ∈ as → Env.lookup σ w = none) →
    (∀ w, Term.var w ∈ as → w < gen) →
    (∀ w, gen ≤ w → Env.lookup σ w = none) →
    as.length < lf →
    ∃ σ' gen2, univArgs (uf + 4) lf (listT as) σ gen = .ok (as, σ', gen2) ∧
      gen2 = gen + 2 * as.length ∧
      (∀ w, w < gen → Env.lookup σ' w = Env.lookup σ w)
  | [], lf, gen, σ, h1, h2, h3, hlf => by
    cases lf with
    | zero => exact absurd hlf (by simp)
    | succ l =>
      refine ⟨σ, gen, ?_, by simp, fun w _ => rfl⟩
      rw [listT_nil, univArgs, if_pos rfl]
  | a :: as', lf, gen, σ, h1, h2, h3, hlf => by
    cases lf with
    | zero => exact absurd hlf (by simp)
    | succ l =>
      have hmem : ∀ w, a = Term.var w → Term.var w ∈ a :: as' := by
        intro w hw
        rw [← hw]
        exact List.mem_cons_self _ _
      have e1 : unify (uf + 2) a (.var gen) false σ = ((gen, a) :: σ, true) :=
        unify_fresh_var (uf + 1) a gen σ (h3 gen (Nat.le_refl gen))
          (fun w hw => ⟨h1 w (hmem w hw), Nat.ne_of_lt (h2 w (hmem w hw))⟩)
      have e2 : unify (uf + 1) (listT as') (.var (gen + 1)) false ((gen, a) :: σ) =
          ((gen + 1, listT as') :: (gen, a) :: σ, true) := by
        refine unify_fresh_var uf (listT as') (gen + 1) _ ?_
          (fun w hw => absurd hw (listT_ne_var as' w))
        rw [Env.lookup, if_neg (by omega)]
        exact h3 (gen + 1) (by omega)
      have hu : unify (uf + 4) (listT (a :: as'))
          (Cons (.var gen) (.var (gen + 1))) false σ =
          ((gen + 1, listT as') :: (gen, a) :: σ, true) := by
        rw [listT_cons,
          show Cons (Term.var gen) (Term.var (gen + 1)) =
            Term.comp "." [.var gen, .var (gen + 1)] from rfl,
          show uf + 4 = (uf + 3) + 1 from rfl,
          unify_comp_comp (uf + 3) "." [a, listT as'] _ [.var gen, .var (gen + 1)]
            false σ (Env.resolve_comp σ "." _) rfl,
          show uf + 3 = (uf + 2) + 1 from rfl,
          unifyArgs_cons_ok (uf + 2) _ _ _ _ _ _ _ e1,
          show uf + 2 = (uf + 1) + 1 from rfl,
          unifyArgs_cons_ok (uf + 1) _ _ _ _ _ _ _ e2]
        rfl
      have hl1 : Env.lookup ((gen + 1, listT as') :: (gen, a) :: σ) gen = some a := by
        rw [Env.lookup, if_neg (by omega), Env.lookup, if_pos rfl]
      have hl2 : Env.lookup ((gen + 1, listT as') :: (gen, a) :: σ) (gen + 1) =
          some (listT as') := by
        rw [Env.lookup, if_pos rfl]
      have hlow : ∀ w, w < gen →
          Env.lookup ((gen + 1, listT as') :: (gen, a) :: σ) w = Env.lookup σ w := by
        intro w hw
        rw [Env.lookup, if_neg (by omega), Env.lookup, if_neg (by omega)]
      have ih1 : ∀ w, Term.var w ∈ as' →
          Env.lookup ((gen + 1, listT as') :: (gen, a) :: σ) w = none := by
        intro w hw
        have hwlt : w < gen := h2 w (List.mem_cons_of_mem _ hw)
        rw [hlow w hwlt]
        exact h1 w (List.mem_cons_of_mem _ hw)
      have ih2 : ∀ w, Term.var w ∈ as' → w < gen + 2 := by
        intro w hw
        have := h2 w (List.mem_cons_of_mem _ hw)
        omega
      have ih3 : ∀ w, gen + 2 ≤ w →
          Env.lookup ((gen + 1, listT as') :: (gen, a) :: σ) w = none := by
        intro w hw
        rw [Env.lookup, if_neg (by omega), Env.lookup, if_neg (by omega)]
        exact h3 w (by omega)
      have ihlen : as'.length < l := by
        simp at hlf
        omega
      obtain ⟨σ3, g3, heq, hg, hpres⟩ :=
        univArgs_listT uf as' l (gen + 2) ((gen + 1, listT as') :: (gen, a) :: σ)
          ih1 ih2 ih3 ihlen
      refine ⟨σ3, g3, ?_, by simp at hg ⊢; omega, ?_⟩
      · rw [univArgs, if_neg (by rw [listT_cons]; simp)]
        simp only [hu, hl1, hl2, heq]
      · intro w hw
        rw [hpres w (by omega), hlow w hw]



/-! ### Claim C3: `=../2` -/

/-- C3 (as stated, refuted): the claim asserts that `Univ` succeeds on every
atom term, binding the list to `[Atom]`.  The code's term walk accepts only
compounds and unbound variables; an atom falls into the `default` branch and
returns the Go error `invalid argument`. -/
theorem claim3_counterexample :
    univ 3 3 (.atom "foo") (.var 5) [] 10 = .error (.goErr "invalid argument") := rfl

/-- C3 (amended): for every **compound** `t = f(as)`, `Univ` binds an unbound
list argument to `[f | as]`; and running `Univ` the other way — an unbound
term `s` against that same list — builds the compound `f(as)` and binds `s`
to it, so `s` resolves to a term identical to `t` (the round trip holds for
compounds; atoms are rejected with an error).  The freshness hypotheses say
the heap binds neither the two list-cell variables nor the argument
variables, as is the case for the fresh variables the engine allocates. -/
theorem claim3_univ_amended (uf lf : Nat) (f : String) (as : List Term) (σ : Env)
    (gen L s : Nat)
    (hL : Env.lookup σ L = none)
    (hs : Env.lookup σ s = none) (hslt : s < gen)
    (has1 : ∀ w, Term.var w ∈ as → Env.lookup σ w = none)
    (has2 : ∀ w, Term.var w ∈ as → w < gen)
    (hfresh : ∀ w, gen ≤ w → Env.lookup σ w = none)
    (hlf : as.length < lf) :
    univ (uf + 4) lf (.comp f as) (.var L) σ gen =
      .ok (true, (L, Cons (.atom f) (listT as)) :: σ, gen) ∧
    Env.resolve ((L, Cons (.atom f) (listT as)) :: σ) (.var L) =
      Cons (.atom f) (listT as) ∧
    ∃ σ2 gen2, univ (uf + 4) lf (.var s) (Cons (.atom f) (listT as)) σ gen =
        .ok (true, (s, .comp f as) :: σ2, gen2) ∧
      Env.resolve ((s, .comp f as) :: σ2) (.var s) = .comp f as := by
  have hrL : Env.resolve σ (.var L) = .var L := Env.resolve_unbound σ L hL
  have hrs : Env.resolve σ (.var s) = .var s := Env.resolve_unbound σ s hs
  refine ⟨?_, Env.resolve_head σ L _ (by simp [Cons]), ?_⟩
  · have e0 : unify (uf + 4) (.var L) (Cons (.atom f) (listT as)) false σ =
        ((L, Cons (.atom f) (listT as)) :: σ, true) := by
      rw [show uf + 4 = (uf + 3) + 1 from rfl]
      simp [unify, hrL, Env.resolve_comp, Cons]
    simp only [univ, Env.resolve_comp, e0]
  · have e1 : unify (uf + 2) (.atom f) (.var gen) false σ =
        ((gen, Term.atom f) :: σ, true) :=
      unify_fresh_var (uf + 1) (.atom f) gen σ (hfresh gen (Nat.le_refl gen))
        (fun w hw => absurd hw (by simp))
    have e2 : unify (uf + 1) (listT as) (.var (gen + 1)) false ((gen, Term.atom f) :: σ) =
        ((gen + 1, listT as) :: (gen, Term.atom f) :: σ, true) := by
      refine unify_fresh_var uf (listT as) (gen + 1) _ ?_
        (fun w hw => absurd hw (listT_ne_var as w))
      rw [Env.lookup, if_neg (by omega)]
      exact hfresh (gen + 1) (by omega)
    have hu : unify (uf + 4) (Cons (.atom f) (listT as))
        (Cons (.var gen) (.var (gen + 1))) false σ =
        ((gen + 1, listT as) :: (gen, Term.atom f) :: σ, true) := by
      rw [show Cons (Term.atom f) (listT as) =
            Term.comp "." [.atom f, listT as] from rfl,
        show Cons (Term.var gen) (Term.var (gen + 1)) =
          Term.comp "." [.var gen, .var (gen + 1)] from rfl,
        show uf + 4 = (uf + 3) + 1 from rfl,
        unify_comp_comp (uf + 3) "." [.atom f, listT as] _ [.var gen, .var (gen + 1)]
          false σ (Env.resolve_comp σ "." _) rfl,
        show uf + 3 = (uf + 2) + 1 from rfl,
        unifyArgs_cons_ok (uf + 2) _ _ _ _ _ _ _ e1,
        show uf + 2 = (uf + 1) + 1 from rfl,
        unifyArgs_cons_ok (uf + 1) _ _ _ _ _ _ _ e2]
      rfl
    have hl1 : Env.lookup ((gen + 1, listT as) :: (gen, Term.atom f) :: σ) gen =
        some (.atom f) := by
      rw [Env.lookup, if_neg (by omega), Env.lookup, if_pos rfl]
    have hl2 : Env.lookup ((gen + 1, listT as) :: (gen, Term.atom f) :: σ) (gen + 1) =
        some (listT as) := by
      rw [Env.lookup, if_pos rfl]
    have hlow : ∀ w, w < gen →
        Env.lookup ((gen + 1, listT as) :: (gen, Term.atom f) :: σ) w =
          Env.lookup σ w := by
      intro w hw
      rw [Env.lookup, if_neg (by omega), Env.lookup, if_neg (by omega)]
    obtain ⟨σ3, g3, heq, hg, hpres⟩ :=
      univArgs_listT uf as lf (gen + 2) ((gen + 1, listT as) :: (gen, Term.atom f) :: σ)
        (fun w hw => by
          rw [hlow w (has2 w hw)]
          exact has1 w hw)
        (fun w hw => by
          have := has2 w hw
          omega)
        (fun w hw => by
          rw [Env.lookup, if_neg (by omega), Env.lookup, if_neg (by omega)]
          exact hfresh w (by omega))
        hlf
    have hs3 : Env.lookup σ3 s = none := by
      rw [hpres s (by omega), hlow s hslt]
      exact hs
    have e3 : unify (uf + 4) (.var s) (.comp f as) false σ3 =
        ((s, Term.comp f as) :: σ3, true) := by
      rw [show uf + 4 = (uf + 3) + 1 from rfl]
      simp [unify, Env.resolve_unbound σ3 s hs3, Env.resolve_comp]
    refine ⟨σ3, g3, ?_, Env.resolve_head σ3 s _ (by simp)⟩
    simp only [univ, hrs, hu, hl1, hl2, heq, e3, univFunctorOf, Env.resolve_atom]

/-- Witness for C3 (amended) at `t = g(a, X)`: `g(a, X) =.. L` binds
`L = [g, a, X]`, and `S =.. [g, a, X]` binds `S` to a compound identical to
`t`. -/
theorem claim3_witness :
    univ 4 3 (.comp "g" [.atom "a", .var 3]) (.var 5) [] 10 =
      .ok (true, [(5, Cons (.atom "g") (listT [.atom "a", .var 3]))], 10) ∧
    ∃ σ2 gen2, univ 4 3 (.var 7) (Cons (.atom "g") (listT [.atom "a", .var 3])) [] 10 =
        .ok (true, (7, .comp "g" [.atom "a", .var 3]) :: σ2, gen2) ∧
      Env.resolve ((7, .comp "g" [.atom "a", .var 3]) :: σ2) (.var 7) =
        .comp "g" [.atom "a", .var 3] := by
  obtain ⟨h1, -, h3⟩ := claim3_univ_amended 0 3 "g" [.atom "a", .var 3] [] 10 5 7
    rfl rfl (by omega) (fun w _ => rfl)
    (by
      intro w hw
      simp at hw
      omega)
    (fun w _ => rfl) (by simp)
  exact ⟨h1, h3⟩


end Prolog
